import Mathlib

/-!
# wb-cache: a bounded LRU cache with optional TTL expiry

A shallow embedding of `service/cache.go` and proofs of its contract.

Modelling choices.

* A `*list.Element` is a pointer.  An element of the recency list is modelled
  as its address (a natural number, allocated from the counter `next`)
  together with the `*Item` it holds; the `container/list` list `LRU` is the
  list of its elements from front (most recently used) to back.
* The Go map `Data` is an association list from keys to element addresses.
* Keys are a type with decidable (hence reflexive) equality, values are any
  type.  The `nil` returned by `Get` on a miss is `none`.
* In the sequential contract every call is one atomic step.  The goroutine
  started by `AddWithTTL` is a pending timer that may fire at any later step.
* The lock that each method takes on `RWMutex` is recorded separately
  (`Method.lock`), with the admission rule of `sync.RWMutex`.
-/

namespace WbCache

/-! ## The standard library pieces the cache is built from -/

/-- The struct `Item` of cache.go: a key with its value. -/
structure Item (K V : Type) where
  key : K
  value : V
deriving DecidableEq, Repr

/-- A `*list.Element` whose `Value` is an `*Item`: the address that identifies
the element, and the item it holds. -/
structure Element (K V : Type) where
  addr : Nat
  item : Item K V
deriving DecidableEq, Repr

namespace GoList

variable {K V : Type}

/-- The element of the list at address `a`, when there is one. -/
def find (l : List (Element K V)) (a : Nat) : Option (Element K V) :=
  l.find? (fun e => decide (e.addr = a))

/-- The method `list.List.Remove`: unlink the element at address `a` (nothing happens when
the element is not an element of the list). -/
def Remove (l : List (Element K V)) (a : Nat) : List (Element K V) :=
  l.filter (fun e => decide (e.addr ≠ a))

/-- The method `list.List.MoveToFront`: when the element at address `a` is an element of
the list it is moved to the front, otherwise the list is not modified. -/
def MoveToFront (l : List (Element K V)) (a : Nat) : List (Element K V) :=
  match find l a with
  | some e => e :: Remove l a
  | none => l

/-- The method `list.List.Back`: the last element of the list, or nil. -/
def Back (l : List (Element K V)) : Option (Element K V) :=
  l.getLast?

/-- The method `list.List.PushFront` of a freshly allocated element. -/
def PushFront (l : List (Element K V)) (e : Element K V) : List (Element K V) :=
  e :: l

/-- The assignment `elem.Value.(*Item).value = value` through the pointer `a`. -/
def setValue (l : List (Element K V)) (a : Nat) (value : V) : List (Element K V) :=
  l.map (fun e => if e.addr = a then { e with item := { e.item with value := value } } else e)

end GoList

namespace GoMap

variable {K : Type} [DecidableEq K]

/-- The map read `m[key]`: the address stored under `key`, if any. -/
def get : List (K × Nat) → K → Option Nat
  | [], _ => none
  | (k, a) :: m, key => if k = key then some a else get m key

/-- The builtin `delete(m, key)`. -/
def delete (m : List (K × Nat)) (key : K) : List (K × Nat) :=
  m.filter (fun p => decide (p.1 ≠ key))

/-- The map write `m[key] = a`. -/
def set (m : List (K × Nat)) (key : K) (a : Nat) : List (K × Nat) :=
  (key, a) :: delete m key

end GoMap

/-! ## The cache -/

/-- The struct `ICacheImpl` of cache.go (without its mutex), and the allocation
counter `next` that gives every new list element a fresh address. -/
structure ICacheImpl (K V : Type) where
  Capacity : Int
  LRU : List (Element K V)
  Data : List (K × Nat)
  next : Nat
deriving DecidableEq, Repr

variable {K V : Type} [DecidableEq K]

/-- The constructor `NewICache(cap)`: the capacity is stored as given, the list
and the map are empty. -/
def NewICache (cap : Int) : ICacheImpl K V :=
  { Capacity := cap, LRU := [], Data := [], next := 0 }

namespace ICacheImpl

/-- The method `Cap()`. -/
def Cap (c : ICacheImpl K V) : Int :=
  c.Capacity

/-- The method `Len()`: the size of the map `Data`. -/
def Len (c : ICacheImpl K V) : Nat :=
  c.Data.length

/-- The method `Clear()`: `LRU.Init()` and a new empty map. -/
def Clear (c : ICacheImpl K V) : ICacheImpl K V :=
  { c with LRU := [], Data := [] }

/-- The method `Add(key, value)`.  A key found in `Data` has its element moved
to the front and its value overwritten.  Otherwise, when the capacity is at
most the length of the list, the back element (if there is one) is deleted from
the map and unlinked; then a new element is pushed to the front and stored in
the map. -/
def Add (c : ICacheImpl K V) (key : K) (value : V) : ICacheImpl K V :=
  match GoMap.get c.Data key with
  | some elem =>
    { c with LRU := GoList.setValue (GoList.MoveToFront c.LRU elem) elem value }
  | none =>
    let c1 : ICacheImpl K V :=
      if c.Capacity ≤ (c.LRU.length : Int) then
        match GoList.Back c.LRU with
        | some elem =>
          { c with Data := GoMap.delete c.Data elem.item.key,
                   LRU := GoList.Remove c.LRU elem.addr }
        | none => c
      else c
    let elem : Element K V := { addr := c1.next, item := { key := key, value := value } }
    { c1 with LRU := GoList.PushFront c1.LRU elem,
              Data := GoMap.set c1.Data key elem.addr,
              next := c1.next + 1 }

/-- The method `Get(key)`: the cache afterwards, the value (`none` is nil) and `ok`. -/
def Get (c : ICacheImpl K V) (key : K) : ICacheImpl K V × Option V × Bool :=
  match GoMap.get c.Data key with
  | some elem =>
    let lru := GoList.MoveToFront c.LRU elem
    ({ c with LRU := lru }, (GoList.find lru elem).map (fun e => e.item.value), true)
  | none => (c, none, false)

/-- The method `Remove(key)`: a key found in `Data` has its element unlinked
and is deleted from the map. -/
def Remove (c : ICacheImpl K V) (key : K) : ICacheImpl K V :=
  match GoMap.get c.Data key with
  | some elem => { c with LRU := GoList.Remove c.LRU elem, Data := GoMap.delete c.Data key }
  | none => c

end ICacheImpl

/-- The goroutine started by `AddWithTTL`: it sleeps for `ttl` and then calls
`Remove(key)`. -/
structure Timer (K : Type) where
  key : K
  ttl : Int
deriving DecidableEq, Repr

/-- The body of the goroutine once its sleep is over. -/
def Timer.fire (t : Timer K) (c : ICacheImpl K V) : ICacheImpl K V :=
  c.Remove t.key

/-- The method `AddWithTTL(key, value, ttl)`: the synchronous `Add`, and the goroutine it
starts. -/
def ICacheImpl.AddWithTTL (c : ICacheImpl K V) (key : K) (value : V) (ttl : Int) :
    ICacheImpl K V × Timer K :=
  (c.Add key value, { key := key, ttl := ttl })

/-! ## Sequences of calls -/

/-- A call of one of the methods `Add`, `Get`, `Remove`, `Clear`. -/
inductive Op (K V : Type) where
  | add (key : K) (value : V)
  | get (key : K)
  | remove (key : K)
  | clear
deriving DecidableEq, Repr

/-- The cache after one call. -/
def step (c : ICacheImpl K V) : Op K V → ICacheImpl K V
  | .add key value => c.Add key value
  | .get key => (c.Get key).1
  | .remove key => c.Remove key
  | .clear => c.Clear

/-- The cache after a sequence of calls. -/
def run (c : ICacheImpl K V) (ops : List (Op K V)) : ICacheImpl K V :=
  ops.foldl step c

/-- A cache together with the goroutines of `AddWithTTL` that have not fired
yet. -/
structure Sys (K V : Type) where
  cache : ICacheImpl K V
  pending : List (Timer K)

/-- One atomic step of the whole system: a call of `Add`, `Get`, `Remove` or
`Clear`, a call of `AddWithTTL`, or the firing of the pending timer number `i`. -/
inductive Event (K V : Type) where
  | call (op : Op K V)
  | addWithTTL (key : K) (value : V) (ttl : Int)
  | fire (i : Nat)
deriving DecidableEq, Repr

/-- The system after one event.  A timer that is not pending cannot fire. -/
def Sys.step (s : Sys K V) : Event K V → Sys K V
  | .call op => { s with cache := WbCache.step s.cache op }
  | .addWithTTL key value ttl =>
    let r := s.cache.AddWithTTL key value ttl
    { cache := r.1, pending := s.pending ++ [r.2] }
  | .fire i =>
    match s.pending.get? i with
    | some t => { cache := t.fire s.cache, pending := s.pending.eraseIdx i }
    | none => s

/-- The system after a sequence of events. -/
def Sys.run (s : Sys K V) (evs : List (Event K V)) : Sys K V :=
  evs.foldl Sys.step s

/-- A freshly constructed cache with no goroutine running. -/
def NewSys (cap : Int) : Sys K V :=
  { cache := NewICache cap, pending := [] }

/-! ## Observations -/

/-- The keys of the recency list, most recently used first. -/
def order (c : ICacheImpl K V) : List K :=
  c.LRU.map (fun e => e.item.key)

/-- The entries (key and value) of the recency list, most recently used first. -/
def entries (c : ICacheImpl K V) : List (K × V) :=
  c.LRU.map (fun e => (e.item.key, e.item.value))

/-! ## Recency, as the sequence of calls defines it -/

/-- Whether the call `op`, made on the cache `c`, touches the key `k`: it is an
`Add` of `k`, or a `Get` of `k` that hits. -/
def touches (c : ICacheImpl K V) (op : Op K V) (k : K) : Bool :=
  match op with
  | .add key _ => decide (key = k)
  | .get key => decide (key = k) && (c.Get key).2.2
  | .remove _ => false
  | .clear => false

/-- The position of the most recent call that touches `k` in the sequence of
calls `ops` made from the cache `c` on, when the first call has position `i`;
`none` when no call touches `k`. -/
def lastTouch (c : ICacheImpl K V) (i : Nat) : List (Op K V) → K → Option Nat
  | [], _ => none
  | op :: ops, k =>
    match lastTouch (step c op) (i + 1) ops k with
    | some t => some t
    | none => if touches c op k then some i else none

/-! ## Locking -/

/-- The methods of `ICache`. -/
inductive Method where
  | Cap
  | Len
  | Clear
  | Add
  | AddWithTTL
  | Get
  | Remove
deriving DecidableEq, Repr

/-- How a method holds `RWMutex` while its body runs: not at all, shared
(`RLock` with a deferred `RUnlock`), or exclusive (`Lock` with a deferred
`Unlock`). -/
inductive LockKind where
  | none
  | shared
  | exclusive
deriving DecidableEq, Repr

/-- The lock each method of cache.go takes: `Cap` takes none, `Len` and `Get`
call `RLock`, `Clear`, `Add` and `Remove` call `Lock`, and `AddWithTTL` holds the
lock of the `Add` it calls. -/
def Method.lock : Method → LockKind
  | .Cap => .none
  | .Len => .shared
  | .Clear => .exclusive
  | .Add => .exclusive
  | .AddWithTTL => .exclusive
  | .Get => .shared
  | .Remove => .exclusive

/-- Whether the body of a method modifies the recency list: `Clear` calls
`Init`, `Add` calls `MoveToFront`, `Remove` and `PushFront`, `Get` calls
`MoveToFront`, `Remove` calls `Remove`; `Cap` and `Len` only read. -/
def Method.writesLRU : Method → Bool
  | .Cap => false
  | .Len => false
  | .Clear => true
  | .Add => true
  | .AddWithTTL => true
  | .Get => true
  | .Remove => true

/-- A `sync.RWMutex`: the number of holders of the shared lock, and whether the
exclusive lock is held. -/
structure RWMutex where
  readers : Nat
  writer : Bool
deriving DecidableEq, Repr

/-- Taking the lock: `none` when the caller has to wait.  The shared lock is
granted unless the exclusive lock is held; the exclusive lock is granted when
nobody holds the lock. -/
def RWMutex.acquire (m : RWMutex) : LockKind → Option RWMutex
  | .none => some m
  | .shared => if m.writer then none else some { m with readers := m.readers + 1 }
  | .exclusive =>
    if m.writer || decide (0 < m.readers) then none else some { m with writer := true }

/-- The mutex of a cache and the calls that are executing their body. -/
structure Calls where
  mutex : RWMutex
  running : List Method
deriving DecidableEq, Repr

/-- A goroutine calls the method `m`: it takes the lock of `m` and starts the
body, or waits (`none`). -/
def Calls.enter (s : Calls) (m : Method) : Option Calls :=
  (s.mutex.acquire m.lock).map (fun mu => { mutex := mu, running := m :: s.running })

/-- No call is running and the mutex is free. -/
def Calls.idle : Calls :=
  { mutex := { readers := 0, writer := false }, running := [] }

/-- Whether the event inserts the key `k`: it is an `Add` or an `AddWithTTL` of
`k`. -/
def inserts (ev : Event K V) (k : K) : Bool :=
  match ev with
  | .call (.add key _) => decide (key = k)
  | .addWithTTL key _ _ => decide (key = k)
  | _ => false

/-- A run with an eviction, an update and an expiry: the keys 1, 2 (with a TTL)
and 3 are added to a cache of capacity 2, key 3 is added again, and the timer of
key 2 fires. -/
def expiryEvents : List (Event Nat Nat) :=
  [Event.call (Op.add 1 10), Event.addWithTTL 2 20 1, Event.call (Op.add 3 30),
    Event.call (Op.add 3 31), Event.fire 0]

/-- The calls of the test `TestLRUOrder` up to its `Get("Russell")`, with the
keys "Russell", 44 and 5.5 written 1, 2 and 3. -/
def lruOrderOps : List (Op Nat Nat) :=
  [Op.add 1 63, Op.add 1 64, Op.add 2 20, Op.add 3 30, Op.get 1]

/-- The cache of the promotion test: capacity 3, the keys A, B, C (written 1, 2,
3) inserted in that order. -/
def abcCache : ICacheImpl Nat Nat :=
  run (NewICache 3) [Op.add 1 10, Op.add 2 20, Op.add 3 30]

/-- The map that the recency list determines: every element is stored under
the key of its item. -/
def bindings (l : List (Element K V)) : List (K × Nat) :=
  l.map (fun e => (e.item.key, e.addr))

/-- The representation invariant of the cache: the map `Data` holds exactly the
elements of the recency list, each under the key of its item; no key and no
address occurs twice in the list; the addresses in use are below the
allocation counter. -/
structure WF (c : ICacheImpl K V) : Prop where
  data : c.Data.Perm (bindings c.LRU)
  keys : (c.LRU.map (fun e => e.item.key)).Nodup
  addrs : (c.LRU.map (fun e => e.addr)).Nodup
  fresh : ∀ e ∈ c.LRU, e.addr < c.next

/-! ## The map and the list -/

set_option linter.unusedSectionVars false

theorem GoMap.get_eq_none_iff (m : List (K × Nat)) (k : K) :
    GoMap.get m k = none ↔ k ∉ m.map Prod.fst := by
  induction m with
  | nil => simp [GoMap.get]
  | cons p m ih =>
    obtain ⟨k1, a1⟩ := p
    by_cases h : k1 = k
    · simp [GoMap.get, h]
    · have h1 : ¬ k = k1 := fun e => h e.symm
      simp only [GoMap.get, h, if_false, ih, List.map_cons, List.mem_cons, h1, false_or]

theorem GoMap.get_eq_some_iff (m : List (K × Nat)) (hm : (m.map Prod.fst).Nodup) (k : K)
    (a : Nat) : GoMap.get m k = some a ↔ (k, a) ∈ m := by
  induction m with
  | nil => simp [GoMap.get]
  | cons p m ih =>
    obtain ⟨k1, a1⟩ := p
    rw [List.map_cons, List.nodup_cons] at hm
    by_cases h : k1 = k
    · subst h
      have h2 : (k1, a) ∉ m := fun hmem => hm.1 (List.mem_map.2 ⟨(k1, a), hmem, rfl⟩)
      simp only [GoMap.get, if_true, Option.some.injEq, List.mem_cons, Prod.mk.injEq,
        true_and, h2, or_false]
      exact eq_comm
    · have h1 : ¬ k = k1 := fun e => h e.symm
      simp only [GoMap.get, h, if_false, ih hm.2, List.mem_cons, Prod.mk.injEq, h1,
        false_and, false_or]

theorem GoMap.get_perm {m m1 : List (K × Nat)} (h : m.Perm m1)
    (hm : (m1.map Prod.fst).Nodup) (k : K) : GoMap.get m k = GoMap.get m1 k := by
  have hm0 : (m.map Prod.fst).Nodup := ((h.map Prod.fst).nodup_iff).2 hm
  apply Option.ext
  intro a
  rw [Option.mem_def, Option.mem_def, GoMap.get_eq_some_iff m hm0, GoMap.get_eq_some_iff m1 hm, h.mem_iff]

theorem bindings_keys (l : List (Element K V)) :
    (bindings l).map Prod.fst = l.map (fun e => e.item.key) := by
  simp [bindings, Function.comp_def]

theorem get_bindings_of_mem {l : List (Element K V)}
    (hk : (l.map (fun e => e.item.key)).Nodup) {e : Element K V} (he : e ∈ l) :
    GoMap.get (bindings l) e.item.key = some e.addr := by
  rw [GoMap.get_eq_some_iff _ (by rw [bindings_keys]; exact hk)]
  exact List.mem_map_of_mem (fun e => (e.item.key, e.addr)) he

theorem get_bindings_of_not_mem {l : List (Element K V)} {k : K}
    (hk : k ∉ l.map (fun e => e.item.key)) : GoMap.get (bindings l) k = none := by
  rw [GoMap.get_eq_none_iff, bindings_keys]
  exact hk

/-- In a list without repeated keys or addresses, unlinking an element by its
address removes exactly the entries with its key. -/
theorem GoList.Remove_eq_filter_key {l : List (Element K V)}
    (hk : (l.map (fun e => e.item.key)).Nodup) (ha : (l.map (fun e => e.addr)).Nodup)
    {e : Element K V} (he : e ∈ l) :
    GoList.Remove l e.addr = l.filter (fun x => decide (x.item.key ≠ e.item.key)) := by
  unfold GoList.Remove
  apply List.filter_congr
  intro x hx
  have h1 : x.addr = e.addr → x = e := List.inj_on_of_nodup_map ha hx he
  have h2 : x.item.key = e.item.key → x = e := List.inj_on_of_nodup_map hk hx he
  by_cases hxe : x = e
  · subst hxe; simp
  · have h3 : x.addr ≠ e.addr := fun h => hxe (h1 h)
    have h4 : x.item.key ≠ e.item.key := fun h => hxe (h2 h)
    simp [h3, h4]

theorem GoList.setValue_cons (x : Element K V) (l : List (Element K V)) (a : Nat) (v : V) :
    GoList.setValue (x :: l) a v
      = (if x.addr = a then { x with item := { x.item with value := v } } else x)
          :: GoList.setValue l a v := rfl

theorem GoList.find_of_mem {l : List (Element K V)} (ha : (l.map (fun e => e.addr)).Nodup)
    {e : Element K V} (he : e ∈ l) : GoList.find l e.addr = some e := by
  unfold GoList.find
  induction l with
  | nil => cases he
  | cons x l ih =>
    rw [List.map_cons, List.nodup_cons] at ha
    by_cases hx : x.addr = e.addr
    · rcases List.mem_cons.1 he with h | h
      · subst h; simp
      · exact absurd (hx ▸ List.mem_map_of_mem (fun e => e.addr) h) ha.1
    · rcases List.mem_cons.1 he with h | h
      · exact absurd (h ▸ rfl) hx
      · simp [List.find?, hx, ih ha.2 h]

theorem GoList.Remove_last {l : List (Element K V)} (ha : (l.map (fun e => e.addr)).Nodup)
    {e : Element K V} (he : GoList.Back l = some e) : GoList.Remove l e.addr = l.dropLast := by
  unfold GoList.Back at he
  have hl : l = l.dropLast ++ [e] := (List.dropLast_append_getLast? e he).symm
  have ha1 : ((l.dropLast ++ [e]).map (fun e => e.addr)).Nodup := hl ▸ ha
  rw [List.map_append, List.nodup_append] at ha1
  have hnot : ∀ x ∈ l.dropLast, x.addr ≠ e.addr := by
    intro x hx hxe
    exact ha1.2.2 (List.mem_map_of_mem (fun e => e.addr) hx) (by simp [hxe])
  unfold GoList.Remove
  conv_lhs => rw [hl]
  rw [List.filter_append]
  have h1 : List.filter (fun x => decide (x.addr ≠ e.addr)) l.dropLast = l.dropLast := by
    rw [List.filter_eq_self]
    intro x hx
    simpa using hnot x hx
  rw [h1]
  simp

theorem perm_cons_filter_key {l : List (Element K V)}
    (hk : (l.map (fun e => e.item.key)).Nodup) {e : Element K V} (he : e ∈ l) :
    l.Perm (e :: l.filter (fun x => decide (x.item.key ≠ e.item.key))) := by
  induction l with
  | nil => cases he
  | cons x l ih =>
    rw [List.map_cons, List.nodup_cons] at hk
    by_cases hx : x.item.key = e.item.key
    · have hxe : x = e := by
        rcases List.mem_cons.1 he with h | h
        · exact h.symm
        · exact absurd (hx ▸ List.mem_map_of_mem (fun e => e.item.key) h) hk.1
      subst hxe
      have hself : l.filter (fun y => decide (y.item.key ≠ x.item.key)) = l := by
        rw [List.filter_eq_self]
        intro y hy
        have : y.item.key ≠ x.item.key := fun h =>
          hk.1 (h ▸ List.mem_map_of_mem (fun e => e.item.key) hy)
        simpa using this
      rw [List.filter_cons_of_neg (by simp), hself]
    · have hel : e ∈ l := by
        rcases List.mem_cons.1 he with h | h
        · exact absurd (h ▸ rfl) hx
        · exact h
      have hstep : (x :: l).filter (fun y => decide (y.item.key ≠ e.item.key))
          = x :: l.filter (fun y => decide (y.item.key ≠ e.item.key)) := by
        simp [List.filter_cons, hx]
      rw [hstep]
      exact ((ih hk.2 hel).cons x).trans (List.Perm.swap e x _)

theorem mem_order {c : ICacheImpl K V} {k : K} :
    k ∈ order c ↔ ∃ e ∈ c.LRU, e.item.key = k := by
  simp [order]

theorem order_eq_map_entries (c : ICacheImpl K V) : order c = (entries c).map Prod.fst := by
  simp [order, entries, Function.comp_def]

theorem mem_entries {c : ICacheImpl K V} {k : K} {v : V} :
    (k, v) ∈ entries c ↔ ∃ e ∈ c.LRU, e.item.key = k ∧ e.item.value = v := by
  simp [entries]

namespace WF

variable {c : ICacheImpl K V}

theorem get_of_mem (h : WF c) {e : Element K V} (he : e ∈ c.LRU) :
    GoMap.get c.Data e.item.key = some e.addr := by
  rw [GoMap.get_perm h.data (by rw [bindings_keys]; exact h.keys)]
  exact get_bindings_of_mem h.keys he

theorem get_of_not_mem (h : WF c) {k : K} (hk : k ∉ order c) : GoMap.get c.Data k = none := by
  rw [GoMap.get_perm h.data (by rw [bindings_keys]; exact h.keys)]
  exact get_bindings_of_not_mem hk

theorem len_eq (h : WF c) : c.Len = c.LRU.length := by
  unfold ICacheImpl.Len
  rw [h.data.length_eq]
  simp [bindings]

theorem len_eq_entries (h : WF c) : c.Len = (entries c).length := by
  rw [h.len_eq]; simp [entries]

theorem data_keys (h : WF c) : (c.Data.map Prod.fst).Perm (order c) := by
  have := h.data.map Prod.fst
  rwa [bindings_keys] at this

/-- The invariant after an element was moved to the front (its value possibly
overwritten). -/
theorem moved (h : WF c) {e e1 : Element K V} (he : e ∈ c.LRU) (ha : e1.addr = e.addr)
    (hk : e1.item.key = e.item.key) :
    WF { c with LRU := e1 :: c.LRU.filter (fun x => decide (x.item.key ≠ e.item.key)) } := by
  have hp := perm_cons_filter_key h.keys he
  refine ⟨?_, ?_, ?_, ?_⟩
  · have h1 : c.Data.Perm (bindings (e :: c.LRU.filter (fun x => decide (x.item.key ≠ e.item.key)))) :=
      h.data.trans (hp.map (fun (e : Element K V) => (e.item.key, e.addr)))
    simpa [bindings, ha, hk] using h1
  · have h1 := (hp.map (fun (e : Element K V) => e.item.key)).nodup_iff.1 h.keys
    simpa [hk] using h1
  · have h1 := (hp.map (fun (e : Element K V) => e.addr)).nodup_iff.1 h.addrs
    simpa [ha] using h1
  · intro x hx
    rcases List.mem_cons.1 hx with hx | hx
    · rw [hx, ha]; exact h.fresh e he
    · exact h.fresh x (List.mem_filter.1 hx).1

/-- The invariant after the entries of a key were removed from the list and
the map. -/
theorem removed (h : WF c) (k : K) :
    WF { c with LRU := c.LRU.filter (fun x => decide (x.item.key ≠ k)),
                Data := GoMap.delete c.Data k } := by
  refine ⟨?_, ?_, ?_, ?_⟩
  · have h1 := h.data.filter (fun p => decide (p.1 ≠ k))
    have h2 : (bindings c.LRU).filter (fun p => decide (p.1 ≠ k))
        = bindings (c.LRU.filter (fun x => decide (x.item.key ≠ k))) := by
      unfold bindings
      rw [List.filter_map]
      rfl
    rw [h2] at h1
    exact h1
  · exact h.keys.sublist ((List.filter_sublist _).map _)
  · exact h.addrs.sublist ((List.filter_sublist _).map _)
  · intro x hx
    exact h.fresh x (List.mem_filter.1 hx).1

/-- The invariant after a freshly allocated element for an absent key was
pushed to the front. -/
theorem pushed (h : WF c) {k : K} (hk : k ∉ order c) (v : V) :
    WF { c with LRU := GoList.PushFront c.LRU { addr := c.next, item := { key := k, value := v } },
                Data := GoMap.set c.Data k c.next,
                next := c.next + 1 } := by
  have hdel : GoMap.delete c.Data k = c.Data := by
    unfold GoMap.delete
    rw [List.filter_eq_self]
    intro p hp
    have : p.1 ≠ k := fun hpk =>
      hk ((h.data_keys.mem_iff).1 (hpk ▸ List.mem_map_of_mem Prod.fst hp))
    simpa using this
  refine ⟨?_, ?_, ?_, ?_⟩
  · simp only [GoMap.set, hdel, GoList.PushFront, bindings, List.map_cons]
    exact h.data.cons _
  · simp only [GoList.PushFront, List.map_cons, List.nodup_cons]
    exact ⟨hk, h.keys⟩
  · simp only [GoList.PushFront, List.map_cons, List.nodup_cons]
    refine ⟨?_, h.addrs⟩
    intro hmem
    obtain ⟨e, he, hea⟩ := List.mem_map.1 hmem
    have := h.fresh e he
    omega
  · intro x hx
    rcases List.mem_cons.1 hx with hx | hx
    · subst hx; simp
    · have := h.fresh x hx
      simp only
      omega

end WF

/-! ## What each method does to a well-formed cache -/

namespace ICacheImpl

variable {c : ICacheImpl K V}

theorem Get_of_mem (h : WF c) {e : Element K V} (he : e ∈ c.LRU) :
    c.Get e.item.key
      = ({ c with LRU := e :: c.LRU.filter (fun x => decide (x.item.key ≠ e.item.key)) },
          some e.item.value, true) := by
  unfold Get
  rw [h.get_of_mem he]
  simp only [GoList.MoveToFront, GoList.find_of_mem h.addrs he,
    GoList.Remove_eq_filter_key h.keys h.addrs he]
  simp [GoList.find]

theorem Get_of_not_mem (h : WF c) {k : K} (hk : k ∉ order c) : c.Get k = (c, none, false) := by
  unfold Get
  rw [h.get_of_not_mem hk]

theorem Add_of_mem (h : WF c) {e : Element K V} (he : e ∈ c.LRU) (v : V) :
    c.Add e.item.key v
      = { c with LRU := { e with item := { e.item with value := v } }
                  :: c.LRU.filter (fun x => decide (x.item.key ≠ e.item.key)) } := by
  unfold Add
  rw [h.get_of_mem he]
  simp only [GoList.MoveToFront, GoList.find_of_mem h.addrs he]
  have htail : GoList.setValue (GoList.Remove c.LRU e.addr) e.addr v
      = GoList.Remove c.LRU e.addr := by
    unfold GoList.setValue
    conv_rhs => rw [← List.map_id (GoList.Remove c.LRU e.addr)]
    apply List.map_congr_left
    intro x hx
    have hne : x.addr ≠ e.addr := by
      have := (List.mem_filter.1 hx).2
      simpa using this
    simp [hne]
  rw [GoList.setValue_cons, if_pos rfl, htail, GoList.Remove_eq_filter_key h.keys h.addrs he]

theorem Add_of_not_mem (h : WF c) {k : K} (hk : k ∉ order c) (v : V) :
    WF (c.Add k v) ∧ (c.Add k v).Capacity = c.Capacity ∧
      entries (c.Add k v)
        = (k, v) :: (if c.Capacity ≤ (c.LRU.length : Int) then (entries c).dropLast
                      else entries c) := by
  unfold Add
  rw [h.get_of_not_mem hk]
  by_cases hcap : c.Capacity ≤ (c.LRU.length : Int)
  · simp only [hcap, if_true]
    cases hb : GoList.Back c.LRU with
    | none =>
      have hnil : c.LRU = [] := List.getLast?_eq_none_iff.1 hb
      refine ⟨h.pushed hk v, rfl, ?_⟩
      simp [entries, GoList.PushFront, hnil]
    | some e =>
      have he : e ∈ c.LRU := List.mem_of_getLast?_eq_some hb
      have hrm := GoList.Remove_eq_filter_key h.keys h.addrs he
      have h1 := h.removed e.item.key
      rw [← hrm] at h1
      have hk1 : k ∉ order { c with LRU := GoList.Remove c.LRU e.addr,
                                    Data := GoMap.delete c.Data e.item.key } := by
        intro hmem
        obtain ⟨x, hx, hxk⟩ := mem_order.1 hmem
        exact hk (mem_order.2 ⟨x, (List.mem_filter.1 hx).1, hxk⟩)
      refine ⟨h1.pushed hk1 v, rfl, ?_⟩
      simp [entries, GoList.PushFront, GoList.Remove_last h.addrs hb]
  · simp only [hcap, if_false]
    exact ⟨h.pushed hk v, by first | rfl | trivial, by simp [entries, GoList.PushFront]⟩

theorem Remove_of_mem (h : WF c) {e : Element K V} (he : e ∈ c.LRU) :
    c.Remove e.item.key
      = { c with LRU := c.LRU.filter (fun x => decide (x.item.key ≠ e.item.key)),
                 Data := GoMap.delete c.Data e.item.key } := by
  unfold Remove
  rw [h.get_of_mem he]
  simp only [GoList.Remove_eq_filter_key h.keys h.addrs he]

theorem Remove_of_not_mem (h : WF c) {k : K} (hk : k ∉ order c) : c.Remove k = c := by
  unfold Remove
  rw [h.get_of_not_mem hk]

end ICacheImpl

/-! ## The invariant holds in every reachable state -/

theorem WF_NewICache (cap : Int) : WF (NewICache cap : ICacheImpl K V) :=
  ⟨List.Perm.nil, List.nodup_nil, List.nodup_nil, fun _ he => by cases he⟩

namespace WF

variable {c : ICacheImpl K V}

theorem Add (h : WF c) (k : K) (v : V) : WF (c.Add k v) := by
  by_cases hk : k ∈ order c
  · obtain ⟨e, he, rfl⟩ := mem_order.1 hk
    rw [ICacheImpl.Add_of_mem h he]
    exact h.moved he rfl rfl
  · exact (ICacheImpl.Add_of_not_mem h hk v).1

theorem Get (h : WF c) (k : K) : WF (c.Get k).1 := by
  by_cases hk : k ∈ order c
  · obtain ⟨e, he, rfl⟩ := mem_order.1 hk
    rw [ICacheImpl.Get_of_mem h he]
    exact h.moved he rfl rfl
  · rw [ICacheImpl.Get_of_not_mem h hk]
    exact h

theorem Remove (h : WF c) (k : K) : WF (c.Remove k) := by
  by_cases hk : k ∈ order c
  · obtain ⟨e, he, rfl⟩ := mem_order.1 hk
    rw [ICacheImpl.Remove_of_mem h he]
    exact h.removed _
  · rw [ICacheImpl.Remove_of_not_mem h hk]
    exact h

theorem Clear (_h : WF c) : WF c.Clear :=
  ⟨List.Perm.nil, List.nodup_nil, List.nodup_nil, fun _ he => by cases he⟩

theorem step (h : WF c) (op : Op K V) : WF (WbCache.step c op) := by
  cases op with
  | add k v => exact h.Add k v
  | get k => exact h.Get k
  | remove k => exact h.Remove k
  | clear => exact h.Clear

theorem run (h : WF c) (ops : List (Op K V)) : WF (WbCache.run c ops) := by
  induction ops generalizing c with
  | nil => exact h
  | cons op ops ih => exact ih (h.step op)

end WF

theorem Sys.step_fire (s : Sys K V) (i : Nat) :
    s.step (.fire i)
      = match s.pending.get? i with
        | some t => { cache := t.fire s.cache, pending := s.pending.eraseIdx i }
        | none => s := rfl

theorem WF_Sys_step {s : Sys K V} (h : WF s.cache) (ev : Event K V) : WF (s.step ev).cache := by
  cases ev with
  | call op => exact h.step op
  | addWithTTL k v ttl => exact h.Add k v
  | fire i =>
    rw [Sys.step_fire]
    split
    · exact h.Remove _
    · exact h

theorem WF_Sys_run {s : Sys K V} (h : WF s.cache) (evs : List (Event K V)) :
    WF (s.run evs).cache := by
  induction evs generalizing s with
  | nil => exact h
  | cons ev evs ih => exact ih (WF_Sys_step h ev)

/-! ## The capacity never changes -/

theorem Capacity_Add (c : ICacheImpl K V) (k : K) (v : V) :
    (c.Add k v).Capacity = c.Capacity := by
  unfold ICacheImpl.Add
  split
  · rfl
  · dsimp only
    split
    · split <;> rfl
    · rfl

theorem Capacity_Get (c : ICacheImpl K V) (k : K) : (c.Get k).1.Capacity = c.Capacity := by
  unfold ICacheImpl.Get
  split <;> rfl

theorem Capacity_Remove (c : ICacheImpl K V) (k : K) : (c.Remove k).Capacity = c.Capacity := by
  unfold ICacheImpl.Remove
  split <;> rfl

theorem Capacity_step (c : ICacheImpl K V) (op : Op K V) :
    (step c op).Capacity = c.Capacity := by
  cases op with
  | add k v => exact Capacity_Add c k v
  | get k => exact Capacity_Get c k
  | remove k => exact Capacity_Remove c k
  | clear => rfl

theorem Capacity_run (c : ICacheImpl K V) (ops : List (Op K V)) :
    (run c ops).Capacity = c.Capacity := by
  induction ops generalizing c with
  | nil => rfl
  | cons op ops ih => exact (ih (step c op)).trans (Capacity_step c op)

theorem Capacity_Sys_step (s : Sys K V) (ev : Event K V) :
    (s.step ev).cache.Capacity = s.cache.Capacity := by
  cases ev with
  | call op => exact Capacity_step s.cache op
  | addWithTTL k v ttl => exact Capacity_Add s.cache k v
  | fire i =>
    rw [Sys.step_fire]
    split
    · exact Capacity_Remove s.cache _
    · rfl

theorem Capacity_Sys_run (s : Sys K V) (evs : List (Event K V)) :
    (s.run evs).cache.Capacity = s.cache.Capacity := by
  induction evs generalizing s with
  | nil => rfl
  | cons ev evs ih => exact (ih (s.step ev)).trans (Capacity_Sys_step s ev)

/-! ## The entries after each method -/

theorem entries_filter (c : ICacheImpl K V) (k : K) :
    (c.LRU.filter (fun x => decide (x.item.key ≠ k))).map (fun e => (e.item.key, e.item.value))
      = (entries c).filter (fun p => decide (p.1 ≠ k)) := by
  unfold entries
  rw [List.filter_map]
  rfl

theorem order_filter (c : ICacheImpl K V) (k : K) :
    (c.LRU.filter (fun x => decide (x.item.key ≠ k))).map (fun e => e.item.key)
      = (order c).filter (fun x => decide (x ≠ k)) := by
  unfold order
  rw [List.filter_map]
  rfl

theorem filter_entries_of_not_mem {c : ICacheImpl K V} {k : K} (hk : k ∉ order c) :
    (entries c).filter (fun p => decide (p.1 ≠ k)) = entries c := by
  rw [List.filter_eq_self]
  intro p hp
  have : p.1 ≠ k := fun h => hk (by
    rw [order_eq_map_entries]; exact h ▸ List.mem_map_of_mem Prod.fst hp)
  simpa using this

theorem mem_order_of_mem_entries {c : ICacheImpl K V} {k : K} {v : V}
    (h : (k, v) ∈ entries c) : k ∈ order c := by
  rw [order_eq_map_entries]
  exact List.mem_map_of_mem Prod.fst h

theorem entries_Add_of_mem {c : ICacheImpl K V} (h : WF c) {k : K} (hk : k ∈ order c) (v : V) :
    entries (c.Add k v) = (k, v) :: (entries c).filter (fun p => decide (p.1 ≠ k)) := by
  obtain ⟨e, he, rfl⟩ := mem_order.1 hk
  rw [ICacheImpl.Add_of_mem h he, ← entries_filter]
  rfl

theorem entries_Get_of_mem {c : ICacheImpl K V} (h : WF c) {k : K} {v : V}
    (hkv : (k, v) ∈ entries c) :
    entries (c.Get k).1 = (k, v) :: (entries c).filter (fun p => decide (p.1 ≠ k)) ∧
      (c.Get k).2 = (some v, true) := by
  obtain ⟨e, he, rfl, rfl⟩ := mem_entries.1 hkv
  rw [ICacheImpl.Get_of_mem h he, ← entries_filter]
  exact ⟨rfl, rfl⟩

theorem entries_Remove {c : ICacheImpl K V} (h : WF c) (k : K) :
    entries (c.Remove k) = (entries c).filter (fun p => decide (p.1 ≠ k)) := by
  by_cases hk : k ∈ order c
  · obtain ⟨e, he, rfl⟩ := mem_order.1 hk
    rw [ICacheImpl.Remove_of_mem h he, ← entries_filter]
    rfl
  · rw [ICacheImpl.Remove_of_not_mem h hk, filter_entries_of_not_mem hk]

/-- In a well-formed cache a key has at most one value. -/
theorem entries_functional {c : ICacheImpl K V} (h : WF c) {k : K} {v w : V}
    (hv : (k, v) ∈ entries c) (hw : (k, w) ∈ entries c) : v = w := by
  obtain ⟨e, he, hek, hev⟩ := mem_entries.1 hv
  obtain ⟨f, hf, hfk, hfv⟩ := mem_entries.1 hw
  have : e = f := List.inj_on_of_nodup_map h.keys he hf (hek.trans hfk.symm)
  rw [← hev, ← hfv, this]

/-! ## The length of the recency list -/

theorem length_filter_key {c : ICacheImpl K V} (h : WF c) {e : Element K V} (he : e ∈ c.LRU) :
    (c.LRU.filter (fun x => decide (x.item.key ≠ e.item.key))).length + 1 = c.LRU.length := by
  have := (perm_cons_filter_key h.keys he).length_eq
  simpa using this.symm

theorem length_Add_of_mem {c : ICacheImpl K V} (h : WF c) {k : K} (hk : k ∈ order c) (v : V) :
    (c.Add k v).LRU.length = c.LRU.length := by
  obtain ⟨e, he, rfl⟩ := mem_order.1 hk
  rw [ICacheImpl.Add_of_mem h he]
  simpa using length_filter_key h he

theorem length_Add_of_not_mem {c : ICacheImpl K V} (h : WF c) {k : K} (hk : k ∉ order c)
    (v : V) :
    (c.Add k v).LRU.length
      = (if c.Capacity ≤ (c.LRU.length : Int) then c.LRU.length - 1 else c.LRU.length) + 1 := by
  have h1 := congrArg List.length (ICacheImpl.Add_of_not_mem h hk v).2.2
  have h2 : ∀ d : ICacheImpl K V, (entries d).length = d.LRU.length := fun d => by simp [entries]
  rw [h2] at h1
  rw [h1]
  split <;> simp [h2]

theorem length_Get {c : ICacheImpl K V} (h : WF c) (k : K) :
    (c.Get k).1.LRU.length = c.LRU.length := by
  by_cases hk : k ∈ order c
  · obtain ⟨e, he, rfl⟩ := mem_order.1 hk
    rw [ICacheImpl.Get_of_mem h he]
    simpa using length_filter_key h he
  · rw [ICacheImpl.Get_of_not_mem h hk]

theorem length_Remove_le (c : ICacheImpl K V) (k : K) :
    (c.Remove k).LRU.length ≤ c.LRU.length := by
  unfold ICacheImpl.Remove
  split
  · exact List.length_filter_le _ _
  · exact le_rfl

/-- The bound on the length of the recency list that every method keeps: the
capacity, or one when the capacity is below one. -/
theorem bound_Add {c : ICacheImpl K V} (h : WF c)
    (hb : (c.LRU.length : Int) ≤ max c.Capacity 1) (k : K) (v : V) :
    ((c.Add k v).LRU.length : Int) ≤ max (c.Add k v).Capacity 1 := by
  rw [Capacity_Add]
  by_cases hk : k ∈ order c
  · rw [length_Add_of_mem h hk]
    exact hb
  · rw [length_Add_of_not_mem h hk]
    split
    · rcases Nat.eq_zero_or_pos c.LRU.length with h0 | hpos
      · rw [h0]
        exact le_max_right _ _
      · have : c.LRU.length - 1 + 1 = c.LRU.length := by omega
        rw [this]
        exact hb
    · rename_i hlt
      have : ((c.LRU.length + 1 : Nat) : Int) ≤ c.Capacity := by
        push_cast
        omega
      exact le_trans this (le_max_left _ _)

theorem bound_step {c : ICacheImpl K V} (h : WF c)
    (hb : (c.LRU.length : Int) ≤ max c.Capacity 1) (op : Op K V) :
    ((step c op).LRU.length : Int) ≤ max (step c op).Capacity 1 := by
  cases op with
  | add k v => exact bound_Add h hb k v
  | get k =>
    show (((c.Get k).1.LRU.length : Nat) : Int) ≤ max (c.Get k).1.Capacity 1
    rw [length_Get h, Capacity_Get]
    exact hb
  | remove k =>
    show (((c.Remove k).LRU.length : Nat) : Int) ≤ max (c.Remove k).Capacity 1
    rw [Capacity_Remove]
    exact le_trans (Int.ofNat_le.2 (length_Remove_le c k)) hb
  | clear =>
    show ((0 : Nat) : Int) ≤ max c.Capacity 1
    exact le_trans (by decide) (le_max_right _ _)

theorem bound_Sys_step {s : Sys K V} (h : WF s.cache)
    (hb : (s.cache.LRU.length : Int) ≤ max s.cache.Capacity 1) (ev : Event K V) :
    (((s.step ev).cache.LRU.length : Nat) : Int) ≤ max (s.step ev).cache.Capacity 1 := by
  cases ev with
  | call op => exact bound_step h hb op
  | addWithTTL k v ttl => exact bound_Add h hb k v
  | fire i =>
    rw [Sys.step_fire]
    split
    · rename_i t _
      show (((s.cache.Remove t.key).LRU.length : Nat) : Int) ≤ max (s.cache.Remove t.key).Capacity 1
      rw [Capacity_Remove]
      exact le_trans (Int.ofNat_le.2 (length_Remove_le s.cache t.key)) hb
    · exact hb

theorem bound_Sys_run {s : Sys K V} (h : WF s.cache)
    (hb : (s.cache.LRU.length : Int) ≤ max s.cache.Capacity 1) (evs : List (Event K V)) :
    (((s.run evs).cache.LRU.length : Nat) : Int) ≤ max (s.run evs).cache.Capacity 1 := by
  induction evs generalizing s with
  | nil => exact hb
  | cons ev evs ih => exact ih (WF_Sys_step h ev) (bound_Sys_step h hb ev)

/-! ## The order of the recency list after each method -/

theorem map_fst_filter (l : List (K × V)) (k : K) :
    (l.filter (fun p => decide (p.1 ≠ k))).map Prod.fst
      = (l.map Prod.fst).filter (fun x => decide (x ≠ k)) := by
  rw [List.filter_map]
  rfl

theorem order_Add_of_mem {c : ICacheImpl K V} (h : WF c) {k : K} (hk : k ∈ order c) (v : V) :
    order (c.Add k v) = k :: (order c).filter (fun x => decide (x ≠ k)) := by
  rw [order_eq_map_entries, entries_Add_of_mem h hk, List.map_cons, map_fst_filter,
    ← order_eq_map_entries]

theorem order_Add_of_not_mem {c : ICacheImpl K V} (h : WF c) {k : K} (hk : k ∉ order c)
    (v : V) :
    order (c.Add k v)
      = k :: (if c.Capacity ≤ (c.LRU.length : Int) then (order c).dropLast else order c) := by
  rw [order_eq_map_entries, (ICacheImpl.Add_of_not_mem h hk v).2.2, List.map_cons]
  split
  · rw [List.map_dropLast, ← order_eq_map_entries]
  · rw [← order_eq_map_entries]

theorem order_Get_of_mem {c : ICacheImpl K V} (h : WF c) {k : K} (hk : k ∈ order c) :
    order (c.Get k).1 = k :: (order c).filter (fun x => decide (x ≠ k)) := by
  obtain ⟨e, he, rfl⟩ := mem_order.1 hk
  rw [ICacheImpl.Get_of_mem h he, ← order_filter]
  rfl

theorem order_Remove {c : ICacheImpl K V} (h : WF c) (k : K) :
    order (c.Remove k) = (order c).filter (fun x => decide (x ≠ k)) := by
  rw [order_eq_map_entries, entries_Remove h, map_fst_filter, ← order_eq_map_entries]

/-- The method `Get` reports a key as found exactly when the key is in the recency list. -/
theorem Get_ok_iff {c : ICacheImpl K V} (h : WF c) (k : K) :
    (c.Get k).2.2 = true ↔ k ∈ order c := by
  constructor
  · intro hg
    by_contra hk
    rw [ICacheImpl.Get_of_not_mem h hk] at hg
    cases hg
  · intro hk
    obtain ⟨e, he, rfl⟩ := mem_order.1 hk
    rw [ICacheImpl.Get_of_mem h he]

theorem Get_ok_false_iff {c : ICacheImpl K V} (h : WF c) (k : K) :
    (c.Get k).2.2 = false ↔ k ∉ order c := by
  rw [← Get_ok_iff h k]
  cases (c.Get k).2.2 <;> simp

/-- The value that `Get` returns for a key of the recency list is the value of
its entry. -/
theorem exists_entry_of_mem_order {c : ICacheImpl K V} {k : K} (hk : k ∈ order c) :
    ∃ v, (k, v) ∈ entries c := by
  obtain ⟨e, he, rfl⟩ := mem_order.1 hk
  exact ⟨e.item.value, mem_entries.2 ⟨e, he, rfl, rfl⟩⟩

/-! ## The recency list is sorted by last touch -/

theorem step_add (c : ICacheImpl K V) (k : K) (v : V) : step c (Op.add k v) = c.Add k v := rfl

theorem step_get (c : ICacheImpl K V) (k : K) : step c (Op.get k) = (c.Get k).1 := rfl

theorem step_remove (c : ICacheImpl K V) (k : K) : step c (Op.remove k) = c.Remove k := rfl

theorem step_clear (c : ICacheImpl K V) : step c Op.clear = c.Clear := rfl

theorem run_snoc (c : ICacheImpl K V) (ops : List (Op K V)) (op : Op K V) :
    run c (ops ++ [op]) = step (run c ops) op := by
  simp [run, List.foldl_append]

theorem lastTouch_snoc (c : ICacheImpl K V) (i : Nat) (ops : List (Op K V)) (op : Op K V)
    (k : K) :
    lastTouch c i (ops ++ [op]) k
      = if touches (run c ops) op k then some (i + ops.length) else lastTouch c i ops k := by
  induction ops generalizing c i with
  | nil => simp [lastTouch, run]
  | cons o ops ih =>
    have hrun : run c (o :: ops) = run (step c o) ops := rfl
    rw [List.cons_append, lastTouch, ih, hrun]
    by_cases ht : touches (run (step c o) ops) op k = true
    · simp only [ht, if_true, List.length_cons]
      congr 1
      omega
    · simp only [ht, if_false, Bool.false_eq_true]
      rw [lastTouch]

/-- Stamps stay sorted when a key is stamped with the current time and put in
front of a sublist that does not hold it. -/
theorem stamps_front {τ τ1 : K → Option Nat} {n : Nat} {l l1 : List K} {k0 : K}
    (h1 : ∀ k ∈ l, ∃ t, τ k = some t ∧ t < n)
    (h2 : l.Pairwise (fun a b => ∀ ta tb, τ a = some ta → τ b = some tb → tb < ta))
    (hsub : l1.Sublist l) (hk0 : k0 ∉ l1) (hτ0 : τ1 k0 = some n)
    (hτ : ∀ k, k ≠ k0 → τ1 k = τ k) :
    (∀ k ∈ k0 :: l1, ∃ t, τ1 k = some t ∧ t < n + 1) ∧
      (k0 :: l1).Pairwise (fun a b => ∀ ta tb, τ1 a = some ta → τ1 b = some tb → tb < ta) := by
  have hne : ∀ k ∈ l1, k ≠ k0 := fun k hk h => hk0 (h ▸ hk)
  constructor
  · intro k hk
    rcases List.mem_cons.1 hk with rfl | hk
    · exact ⟨n, hτ0, Nat.lt_succ_self n⟩
    · obtain ⟨t, ht, hlt⟩ := h1 k (hsub.subset hk)
      exact ⟨t, (hτ k (hne k hk)).trans ht, Nat.lt_succ_of_lt hlt⟩
  · rw [List.pairwise_cons]
    constructor
    · intro b hb ta tb hta htb
      rw [hτ0] at hta
      cases hta
      obtain ⟨t, ht, hlt⟩ := h1 b (hsub.subset hb)
      rw [hτ b (hne b hb), ht] at htb
      cases htb
      exact hlt
    · refine (h2.sublist hsub).imp_of_mem ?_
      intro a b ha hb hR ta tb hta htb
      rw [hτ a (hne a ha)] at hta
      rw [hτ b (hne b hb)] at htb
      exact hR ta tb hta htb

/-- Stamps stay sorted when entries are removed and no key is stamped. -/
theorem stamps_sublist {τ τ1 : K → Option Nat} {n : Nat} {l l1 : List K}
    (h1 : ∀ k ∈ l, ∃ t, τ k = some t ∧ t < n)
    (h2 : l.Pairwise (fun a b => ∀ ta tb, τ a = some ta → τ b = some tb → tb < ta))
    (hsub : l1.Sublist l) (hτ : ∀ k, τ1 k = τ k) :
    (∀ k ∈ l1, ∃ t, τ1 k = some t ∧ t < n + 1) ∧
      l1.Pairwise (fun a b => ∀ ta tb, τ1 a = some ta → τ1 b = some tb → tb < ta) := by
  constructor
  · intro k hk
    obtain ⟨t, ht, hlt⟩ := h1 k (hsub.subset hk)
    exact ⟨t, (hτ k).trans ht, Nat.lt_succ_of_lt hlt⟩
  · refine (h2.sublist hsub).imp ?_
    intro a b hR ta tb hta htb
    rw [hτ a] at hta
    rw [hτ b] at htb
    exact hR ta tb hta htb

theorem not_mem_filter_ne (l : List K) (k : K) : k ∉ l.filter (fun x => decide (x ≠ k)) := by
  intro h
  have := (List.mem_filter.1 h).2
  simp at this

/-- One call keeps the recency list sorted by stamp, the stamp of a key being
the time of the last call that touched it. -/
theorem recency_step {c : ICacheImpl K V} (h : WF c) (τ : K → Option Nat) (n : Nat)
    (h1 : ∀ k ∈ order c, ∃ t, τ k = some t ∧ t < n)
    (h2 : (order c).Pairwise (fun a b => ∀ ta tb, τ a = some ta → τ b = some tb → tb < ta))
    (op : Op K V) :
    (∀ k ∈ order (step c op),
        ∃ t, (if touches c op k then some n else τ k) = some t ∧ t < n + 1) ∧
      (order (step c op)).Pairwise (fun a b => ∀ ta tb,
        (if touches c op a then some n else τ a) = some ta →
        (if touches c op b then some n else τ b) = some tb → tb < ta) := by
  cases op with
  | add k v =>
    have hτ0 : (if touches c (Op.add k v) k then some n else τ k) = some n := by
      simp [touches]
    have hτ : ∀ x, x ≠ k → (if touches c (Op.add k v) x then some n else τ x) = τ x := by
      intro x hx
      have : ¬ k = x := fun e => hx e.symm
      simp [touches, this]
    by_cases hk : k ∈ order c
    · rw [step_add, order_Add_of_mem h hk]
      exact stamps_front h1 h2 (List.filter_sublist _) (not_mem_filter_ne _ _) hτ0 hτ
    · rw [step_add, order_Add_of_not_mem h hk]
      split
      · exact stamps_front h1 h2 (List.dropLast_sublist _)
          (fun hm => hk ((List.dropLast_sublist _).subset hm)) hτ0 hτ
      · exact stamps_front h1 h2 (List.Sublist.refl _) hk hτ0 hτ
  | get k =>
    by_cases hk : k ∈ order c
    · have hok : (c.Get k).2.2 = true := (Get_ok_iff h k).2 hk
      have hτ0 : (if touches c (Op.get k) k then some n else τ k) = some n := by
        simp [touches, hok]
      have hτ : ∀ x, x ≠ k → (if touches c (Op.get k) x then some n else τ x) = τ x := by
        intro x hx
        have : ¬ k = x := fun e => hx e.symm
        simp [touches, this]
      rw [step_get, order_Get_of_mem h hk]
      exact stamps_front h1 h2 (List.filter_sublist _) (not_mem_filter_ne _ _) hτ0 hτ
    · have hok : (c.Get k).2.2 = false := (Get_ok_false_iff h k).2 hk
      have hτ : ∀ x, (if touches c (Op.get k) x then some n else τ x) = τ x := by
        intro x
        simp [touches, hok]
      rw [step_get, ICacheImpl.Get_of_not_mem h hk]
      exact stamps_sublist h1 h2 (List.Sublist.refl _) hτ
  | remove k =>
    rw [step_remove, order_Remove h]
    exact stamps_sublist h1 h2 (List.filter_sublist _) (fun x => by simp [touches])
  | clear =>
    exact stamps_sublist h1 h2 (List.nil_sublist _) (fun x => by simp [touches])

/-- In every state reached from a new cache, every key of the recency list has
been touched, and the list is sorted from the most recently touched key to the
least recently touched one. -/
theorem recency_sorted (cap : Int) (ops : List (Op K V)) :
    (∀ k ∈ order (run (NewICache cap : ICacheImpl K V) ops),
        ∃ t, lastTouch (NewICache cap : ICacheImpl K V) 0 ops k = some t ∧ t < ops.length) ∧
      (order (run (NewICache cap : ICacheImpl K V) ops)).Pairwise (fun a b => ∀ ta tb,
        lastTouch (NewICache cap : ICacheImpl K V) 0 ops a = some ta →
        lastTouch (NewICache cap : ICacheImpl K V) 0 ops b = some tb → tb < ta) := by
  induction ops using List.reverseRecOn with
  | nil => exact ⟨fun k hk => absurd hk (List.not_mem_nil k), List.Pairwise.nil⟩
  | append_singleton ops op ih =>
    have hs := recency_step ((WF_NewICache cap).run ops) _ _ ih.1 ih.2 op
    rw [run_snoc]
    simp only [lastTouch_snoc, Nat.zero_add, List.length_append, List.length_singleton]
    exact hs

/-! ## The last entry of a list -/

theorem mem_dropLast_or_eq_last {α : Type} {l : List α} {x a : α} (hx : l.getLast? = some x)
    (ha : a ∈ l) : a ∈ l.dropLast ∨ a = x := by
  have hl : l.dropLast ++ [x] = l := List.dropLast_append_getLast? x hx
  rw [← hl] at ha
  rcases List.mem_append.1 ha with h | h
  · exact Or.inl h
  · exact Or.inr (List.mem_singleton.1 h)

theorem getLast?_of_mem_of_not_mem_dropLast {α : Type} {l : List α} {a : α} (ha : a ∈ l)
    (hd : a ∉ l.dropLast) : l.getLast? = some a := by
  cases hx : l.getLast? with
  | none =>
    rw [List.getLast?_eq_none_iff.1 hx] at ha
    cases ha
  | some x =>
    rcases mem_dropLast_or_eq_last hx ha with h | h
    · exact absurd h hd
    · rw [h]

theorem order_getLast? (c : ICacheImpl K V) :
    (order c).getLast? = (entries c).getLast?.map Prod.fst := by
  rw [order_eq_map_entries, List.getLast?_map]

/-! ## Adding distinct keys to a new cache -/

theorem entries_run_adds (cap : Int) (kvs : List (K × V)) (hnd : (kvs.map Prod.fst).Nodup)
    (hlen : (kvs.length : Int) ≤ cap) :
    entries (run (NewICache cap) (kvs.map (fun p => Op.add p.1 p.2))) = kvs.reverse := by
  induction kvs using List.reverseRecOn with
  | nil => rfl
  | append_singleton kvs p ih =>
    rw [List.map_append, List.nodup_append] at hnd
    rw [List.length_append, List.length_singleton] at hlen
    have ih1 := ih hnd.1 (by push_cast at hlen; omega)
    have hwf : WF (run (NewICache cap : ICacheImpl K V) (kvs.map (fun p => Op.add p.1 p.2))) :=
      (WF_NewICache cap).run _
    have hk : p.1 ∉ order (run (NewICache cap : ICacheImpl K V)
        (kvs.map (fun p => Op.add p.1 p.2))) := by
      rw [order_eq_map_entries, ih1, List.map_reverse, List.mem_reverse]
      intro hmem
      exact hnd.2.2 hmem (by simp)
    have hlru : (run (NewICache cap : ICacheImpl K V)
        (kvs.map (fun p => Op.add p.1 p.2))).LRU.length = kvs.length := by
      have := congrArg List.length ih1
      simpa [entries] using this
    have hnot : ¬ (run (NewICache cap : ICacheImpl K V)
        (kvs.map (fun p => Op.add p.1 p.2))).Capacity ≤ (((run (NewICache cap : ICacheImpl K V)
        (kvs.map (fun p => Op.add p.1 p.2))).LRU.length : Nat) : Int) := by
      rw [Capacity_run, hlru]
      show ¬ cap ≤ (kvs.length : Int)
      push_cast at hlen
      omega
    rw [List.map_append, List.map_singleton, run_snoc, step_add,
      (ICacheImpl.Add_of_not_mem hwf hk p.2).2.2, if_neg hnot, ih1]
    simp

theorem entries_run_overload (cap : Int) (hcap : 1 ≤ cap) (k0 : K) (v0 : V)
    (rest : List (K × V)) (hlen : (rest.length : Int) = cap) (hnd : (k0 :: rest.map Prod.fst).Nodup) :
    entries (run (NewICache cap) (((k0, v0) :: rest).map (fun p => Op.add p.1 p.2)))
      = rest.reverse := by
  rcases List.eq_nil_or_concat rest with hnil | ⟨body, pl, hrest⟩
  · subst hnil
    have h0 : cap = 0 := by simpa using hlen.symm
    omega
  · rw [List.concat_eq_append] at hrest
    subst hrest
    have hnd1 : ((((k0, v0) :: body) ++ [pl]).map Prod.fst).Nodup := by
      simpa using hnd
    rw [List.length_append, List.length_singleton] at hlen
    rw [List.map_append, List.nodup_append] at hnd1
    have hlen1 : ((((k0, v0) :: body).length : Nat) : Int) ≤ cap := by
      rw [List.length_cons]
      exact le_of_eq hlen
    have ih1 := entries_run_adds cap ((k0, v0) :: body) hnd1.1 hlen1
    have hwf : WF (run (NewICache cap : ICacheImpl K V)
        (((k0, v0) :: body).map (fun p => Op.add p.1 p.2))) := (WF_NewICache cap).run _
    have hk : pl.1 ∉ order (run (NewICache cap : ICacheImpl K V)
        (((k0, v0) :: body).map (fun p => Op.add p.1 p.2))) := by
      rw [order_eq_map_entries, ih1, List.map_reverse, List.mem_reverse]
      intro hmem
      exact hnd1.2.2 hmem (by simp)
    have hlru : (run (NewICache cap : ICacheImpl K V)
        (((k0, v0) :: body).map (fun p => Op.add p.1 p.2))).LRU.length = body.length + 1 := by
      have := congrArg List.length ih1
      simpa [entries] using this
    have hfull : (run (NewICache cap : ICacheImpl K V)
        (((k0, v0) :: body).map (fun p => Op.add p.1 p.2))).Capacity
          ≤ (((run (NewICache cap : ICacheImpl K V)
        (((k0, v0) :: body).map (fun p => Op.add p.1 p.2))).LRU.length : Nat) : Int) := by
      rw [Capacity_run, hlru]
      show cap ≤ ((body.length + 1 : Nat) : Int)
      exact le_of_eq hlen.symm
    have hsplit : (k0, v0) :: (body ++ [pl]) = ((k0, v0) :: body) ++ [pl] := rfl
    rw [hsplit, List.map_append, List.map_singleton, run_snoc, step_add,
      (ICacheImpl.Add_of_not_mem hwf hk pl.2).2.2, if_pos hfull, ih1]
    simp

/-! ## Promotion by `Get` before an evicting `Add` -/

theorem mem_entries_of_Get {c : ICacheImpl K V} (h : WF c) {k : K} {v : V}
    (hg : (c.Get k).2 = (some v, true)) : (k, v) ∈ entries c := by
  have hok : (c.Get k).2.2 = true := by rw [hg]
  obtain ⟨w, hw⟩ := exists_entry_of_mem_order ((Get_ok_iff h k).1 hok)
  have h2 := (entries_Get_of_mem h hw).2
  rw [hg] at h2
  have hvw : v = w := Option.some.inj (congrArg Prod.fst h2)
  rw [hvw]
  exact hw

theorem length_filter_entries {c : ICacheImpl K V} (h : WF c) {k : K} (hk : k ∈ order c) :
    ((entries c).filter (fun p => decide (p.1 ≠ k))).length + 1 = c.LRU.length := by
  obtain ⟨e, he, rfl⟩ := mem_order.1 hk
  rw [← entries_filter, List.length_map]
  exact length_filter_key h he

theorem not_mem_dropLast_of_nodup {α : Type} {l : List α} (hl : l.Nodup) {b : α}
    (hb : l.getLast? = some b) : b ∉ l.dropLast := by
  rw [← List.dropLast_append_getLast? b hb, List.nodup_append] at hl
  intro hmem
  exact hl.2.2 hmem (List.mem_singleton.2 rfl)

theorem entries_Get_Add {c : ICacheImpl K V} (h : WF c) (hcap : 2 ≤ c.Cap)
    (hfull : (c.Len : Int) = c.Cap) {a d : K} {va : V} (ha : (a, va) ∈ entries c)
    (hd : d ∉ order c) (v : V) :
    entries ((c.Get a).1.Add d v)
      = (d, v) :: (a, va) :: ((entries c).filter (fun p => decide (p.1 ≠ a))).dropLast := by
  have hao : a ∈ order c := mem_order_of_mem_entries ha
  have hwf1 : WF (c.Get a).1 := h.Get a
  have hent1 := (entries_Get_of_mem h ha).1
  have hd1 : d ∉ order (c.Get a).1 := by
    rw [order_Get_of_mem h hao]
    intro hmem
    rcases List.mem_cons.1 hmem with hda | hmem
    · exact hd (hda ▸ hao)
    · exact hd (List.mem_filter.1 hmem).1
  have hlen := length_filter_entries h hao
  have hne : (entries c).filter (fun p => decide (p.1 ≠ a)) ≠ [] := by
    intro hnil
    rw [hnil, List.length_nil] at hlen
    rw [h.len_eq, ← hlen] at hfull
    unfold ICacheImpl.Cap at hcap hfull
    rw [← hfull] at hcap
    exact absurd hcap (by decide)
  have hfull1 : (c.Get a).1.Capacity ≤ (((c.Get a).1.LRU.length : Nat) : Int) := by
    rw [Capacity_Get, length_Get h, ← h.len_eq, hfull]
    exact le_refl _
  rw [(ICacheImpl.Add_of_not_mem hwf1 hd1 v).2.2, if_pos hfull1, hent1,
    List.dropLast_cons_of_ne_nil hne]

/-! ## What `Get` returns for the keys a method does not concern -/

/-- Two well-formed caches with the same entries under a key answer `Get` of
that key alike. -/
theorem Get_congr {c d : ICacheImpl K V} (hc : WF c) (hd : WF d) {k : K}
    (hiff : ∀ v, (k, v) ∈ entries c ↔ (k, v) ∈ entries d) : (c.Get k).2 = (d.Get k).2 := by
  by_cases hk : k ∈ order c
  · obtain ⟨v, hv⟩ := exists_entry_of_mem_order hk
    rw [(entries_Get_of_mem hc hv).2, (entries_Get_of_mem hd ((hiff v).1 hv)).2]
  · have hk2 : k ∉ order d := by
      intro hmem
      obtain ⟨v, hv⟩ := exists_entry_of_mem_order hmem
      exact hk (mem_order_of_mem_entries ((hiff v).2 hv))
    rw [ICacheImpl.Get_of_not_mem hc hk, ICacheImpl.Get_of_not_mem hd hk2]

theorem mem_filter_entries_of_ne {l : List (K × V)} {k k1 : K} (hne : k1 ≠ k) (v : V) :
    (k1, v) ∈ l.filter (fun p => decide (p.1 ≠ k)) ↔ (k1, v) ∈ l := by
  rw [List.mem_filter]
  constructor
  · exact fun hm => hm.1
  · exact fun hm => ⟨hm, by simpa using hne⟩

theorem mem_cons_filter_entries_of_ne {l : List (K × V)} {k k1 : K} (hne : k1 ≠ k) (v w : V) :
    (k1, v) ∈ (k, w) :: l.filter (fun p => decide (p.1 ≠ k)) ↔ (k1, v) ∈ l := by
  rw [List.mem_cons, mem_filter_entries_of_ne hne]
  constructor
  · rintro (hm | hm)
    · exact absurd (congrArg Prod.fst hm) hne
    · exact hm
  · exact fun hm => Or.inr hm

theorem Get_Remove_self {c : ICacheImpl K V} (h : WF c) (k : K) :
    ((c.Remove k).Get k).2 = (none, false) := by
  have hk : k ∉ order (c.Remove k) := by
    rw [order_Remove h]
    exact not_mem_filter_ne _ _
  rw [ICacheImpl.Get_of_not_mem (h.Remove k) hk]

theorem Get_Remove_of_ne {c : ICacheImpl K V} (h : WF c) {k k1 : K} (hne : k1 ≠ k) :
    ((c.Remove k).Get k1).2 = (c.Get k1).2 := by
  apply Get_congr (h.Remove k) h
  intro v
  rw [entries_Remove h]
  exact mem_filter_entries_of_ne hne v

/-! ## A cache whose capacity is not positive -/

theorem length_le_one_eq {α : Type} {l : List α} (hl : l.length ≤ 1) : l.dropLast = [] := by
  cases l with
  | nil => rfl
  | cons a t =>
    cases t with
    | nil => rfl
    | cons b u => simp at hl

theorem entries_Add_of_length_le_one {c : ICacheImpl K V} (h : WF c) (hcap : c.Capacity ≤ 0)
    (hlen : c.LRU.length ≤ 1) (k : K) (v : V) : entries (c.Add k v) = [(k, v)] := by
  by_cases hk : k ∈ order c
  · have hf := length_filter_entries h hk
    have hnil : (entries c).filter (fun p => decide (p.1 ≠ k)) = [] :=
      List.length_eq_zero.1 (by omega)
    rw [entries_Add_of_mem h hk, hnil]
  · have hfull : c.Capacity ≤ (c.LRU.length : Int) :=
      le_trans hcap (Int.ofNat_nonneg _)
    rw [(ICacheImpl.Add_of_not_mem h hk v).2.2, if_pos hfull,
      length_le_one_eq (by simpa [entries] using hlen)]

theorem length_run_adds_le_one (cap : Int) (hcap : cap ≤ 0) (kvs : List (K × V)) :
    (run (NewICache cap : ICacheImpl K V) (kvs.map (fun p => Op.add p.1 p.2))).LRU.length ≤ 1 := by
  induction kvs using List.reverseRecOn with
  | nil => exact Nat.zero_le 1
  | append_singleton kvs p ih =>
    have hwf : WF (run (NewICache cap : ICacheImpl K V) (kvs.map (fun p => Op.add p.1 p.2))) :=
      (WF_NewICache cap).run _
    have hc : (run (NewICache cap : ICacheImpl K V)
        (kvs.map (fun p => Op.add p.1 p.2))).Capacity ≤ 0 := by
      rw [Capacity_run]
      exact hcap
    have hent := entries_Add_of_length_le_one hwf hc ih p.1 p.2
    rw [List.map_append, List.map_singleton, run_snoc, step_add]
    have := congrArg List.length hent
    simp only [entries, List.length_map, List.length_singleton] at this
    omega

/-! ## Calls and timers in the system -/

theorem Sys_run_calls (s : Sys K V) (ops : List (Op K V)) :
    s.run (ops.map Event.call) = { cache := run s.cache ops, pending := s.pending } := by
  induction ops generalizing s with
  | nil => rfl
  | cons op ops ih =>
    show (s.step (Event.call op)).run (ops.map Event.call) = _
    rw [ih]
    rfl

theorem get?_append_length {α : Type} (l : List α) (a : α) : (l ++ [a]).get? l.length = some a := by
  induction l with
  | nil => rfl
  | cons x l ih => simp

theorem eraseIdx_append_length {α : Type} (l : List α) (a : α) :
    (l ++ [a]).eraseIdx l.length = l := by
  induction l with
  | nil => rfl
  | cons x l ih => simp [List.eraseIdx, ih]

/-! ## Removing twice, and keys that were never inserted -/

theorem GoMap.get_delete_self (m : List (K × Nat)) (k : K) :
    GoMap.get (GoMap.delete m k) k = none := by
  rw [GoMap.get_eq_none_iff]
  intro hmem
  obtain ⟨p, hp, hpk⟩ := List.mem_map.1 hmem
  have := (List.mem_filter.1 hp).2
  simp [hpk] at this

theorem Remove_of_get_none {c : ICacheImpl K V} {k : K} (h : GoMap.get c.Data k = none) :
    c.Remove k = c := by
  unfold ICacheImpl.Remove
  rw [h]

theorem get_Data_Remove_self (c : ICacheImpl K V) (k : K) :
    GoMap.get (c.Remove k).Data k = none := by
  unfold ICacheImpl.Remove
  split
  · exact GoMap.get_delete_self _ _
  · assumption

theorem mem_order_Add {c : ICacheImpl K V} (h : WF c) {k x : K} {v : V}
    (hx : x ∈ order (c.Add k v)) : x = k ∨ x ∈ order c := by
  by_cases hk : k ∈ order c
  · rw [order_Add_of_mem h hk] at hx
    rcases List.mem_cons.1 hx with hx | hx
    · exact Or.inl hx
    · exact Or.inr (List.mem_filter.1 hx).1
  · rw [order_Add_of_not_mem h hk] at hx
    rcases List.mem_cons.1 hx with hx | hx
    · exact Or.inl hx
    · right
      split at hx
      · exact (List.dropLast_sublist _).subset hx
      · exact hx

theorem mem_order_Get {c : ICacheImpl K V} (h : WF c) {k x : K} :
    x ∈ order (c.Get k).1 ↔ x ∈ order c := by
  by_cases hk : k ∈ order c
  · rw [order_Get_of_mem h hk, List.mem_cons, List.mem_filter]
    constructor
    · rintro (hx | hx)
      · exact hx ▸ hk
      · exact hx.1
    · intro hx
      by_cases hxk : x = k
      · exact Or.inl hxk
      · exact Or.inr ⟨hx, by simpa using hxk⟩
  · rw [ICacheImpl.Get_of_not_mem h hk]

theorem mem_order_Remove {c : ICacheImpl K V} (h : WF c) {k x : K}
    (hx : x ∈ order (c.Remove k)) : x ∈ order c := by
  rw [order_Remove h] at hx
  exact (List.mem_filter.1 hx).1

/-- A key enters the recency list only through an event that inserts it. -/
theorem mem_order_Sys_step {s : Sys K V} (h : WF s.cache) {ev : Event K V} {x : K}
    (hx : x ∈ order (s.step ev).cache) : x ∈ order s.cache ∨ inserts ev x = true := by
  cases ev with
  | call op =>
    cases op with
    | add k v =>
      rcases mem_order_Add h (show x ∈ order (s.cache.Add k v) from hx) with hk | hk
      · exact Or.inr (by simp [inserts, hk])
      · exact Or.inl hk
    | get k => exact Or.inl ((mem_order_Get h).1 hx)
    | remove k => exact Or.inl (mem_order_Remove h hx)
    | clear => cases hx
  | addWithTTL k v ttl =>
    rcases mem_order_Add h (show x ∈ order (s.cache.Add k v) from hx) with hk | hk
    · exact Or.inr (by simp [inserts, hk])
    · exact Or.inl hk
  | fire i =>
    rw [Sys.step_fire] at hx
    split at hx
    · exact Or.inl (mem_order_Remove h hx)
    · exact Or.inl hx

theorem not_mem_order_Sys_run {s : Sys K V} (h : WF s.cache) {k : K} (hk : k ∉ order s.cache)
    (evs : List (Event K V)) (hnever : ∀ ev ∈ evs, inserts ev k = false) :
    k ∉ order (s.run evs).cache := by
  induction evs generalizing s with
  | nil => exact hk
  | cons ev evs ih =>
    have hev : inserts ev k = false := hnever ev (List.mem_cons_self _ _)
    have hk1 : k ∉ order (s.step ev).cache := by
      intro hmem
      rcases mem_order_Sys_step h hmem with hm | hm
      · exact hk hm
      · rw [hev] at hm
        cases hm
    exact ih (WF_Sys_step h ev) hk1 (fun e he => hnever e (List.mem_cons_of_mem _ he))

/-! ## The map and the list agree -/

theorem WF.get_Data_eq_some_iff {c : ICacheImpl K V} (h : WF c) (k : K) (a : Nat) :
    GoMap.get c.Data k = some a ↔ ∃ e ∈ c.LRU, e.item.key = k ∧ e.addr = a := by
  have hnd : (c.Data.map Prod.fst).Nodup := (h.data_keys.nodup_iff).2 h.keys
  rw [GoMap.get_eq_some_iff c.Data hnd, h.data.mem_iff]
  unfold bindings
  rw [List.mem_map]
  constructor
  · rintro ⟨e, he, hek⟩
    exact ⟨e, he, congrArg Prod.fst hek, congrArg Prod.snd hek⟩
  · rintro ⟨e, he, hk, ha⟩
    exact ⟨e, he, by rw [hk, ha]⟩

/-! ## The bound along calls, and what `Get` leaves alone -/

theorem bound_run {c : ICacheImpl K V} (h : WF c)
    (hb : (c.LRU.length : Int) ≤ max c.Capacity 1) (ops : List (Op K V)) :
    (((run c ops).LRU.length : Nat) : Int) ≤ max (run c ops).Capacity 1 := by
  induction ops generalizing c with
  | nil => exact hb
  | cons op ops ih => exact ih (h.step op) (bound_step h hb op)

theorem Data_Get (c : ICacheImpl K V) (k : K) : (c.Get k).1.Data = c.Data := by
  unfold ICacheImpl.Get
  split <;> rfl

theorem mem_entries_Get_iff {c : ICacheImpl K V} (h : WF c) (k x : K) (w : V) :
    (x, w) ∈ entries (c.Get k).1 ↔ (x, w) ∈ entries c := by
  by_cases hk : k ∈ order c
  · obtain ⟨v, hv⟩ := exists_entry_of_mem_order hk
    rw [(entries_Get_of_mem h hv).1]
    by_cases hxk : x = k
    · subst hxk
      constructor
      · intro hm
        rcases List.mem_cons.1 hm with hm | hm
        · rw [hm]
          exact hv
        · have := (List.mem_filter.1 hm).2
          simp at this
      · intro hm
        rw [entries_functional h hm hv]
        exact List.mem_cons_self _ _
    · exact mem_cons_filter_entries_of_ne hxk w v
  · rw [ICacheImpl.Get_of_not_mem h hk]

theorem filter_entries_Get {c : ICacheImpl K V} (h : WF c) (k : K) :
    (entries (c.Get k).1).filter (fun p => decide (p.1 ≠ k))
      = (entries c).filter (fun p => decide (p.1 ≠ k)) := by
  by_cases hk : k ∈ order c
  · obtain ⟨v, hv⟩ := exists_entry_of_mem_order hk
    rw [(entries_Get_of_mem h hv).1, List.filter_cons_of_neg (by simp), List.filter_filter]
    simp
  · rw [ICacheImpl.Get_of_not_mem h hk]

theorem Get_Add_self {c : ICacheImpl K V} (h : WF c) (k : K) (v : V) :
    ((c.Add k v).Get k).2 = (some v, true) := by
  have hmem : (k, v) ∈ entries (c.Add k v) := by
    by_cases hk : k ∈ order c
    · rw [entries_Add_of_mem h hk]
      exact List.mem_cons_self _ _
    · rw [(ICacheImpl.Add_of_not_mem h hk v).2.2]
      exact List.mem_cons_self _ _
  exact (entries_Get_of_mem (h.Add k v) hmem).2

/-! ## The contract -/

/-- C1 (capacity invariant): for a cache built by `NewICache(cap)` with
`cap >= 1`, after every call of a finite sequence of `Add`, `AddWithTTL`, `Get`,
`Remove` and `Clear` calls, interleaved in any way with the expiries that the
`AddWithTTL` calls scheduled (every call and every expiry is one atomic step),
`Len() <= Cap()`.  "After every call" is every initial segment `evs.take n` of
the sequence. -/
theorem capacity_invariant (cap : Int) (hcap : 1 ≤ cap) (evs : List (Event K V)) (n : Nat) :
    (((NewSys cap : Sys K V).run (evs.take n)).cache.Len : Int)
      ≤ ((NewSys cap : Sys K V).run (evs.take n)).cache.Cap := by
  have hwf : WF (NewSys cap : Sys K V).cache := WF_NewICache cap
  have h0 : ((NewSys cap : Sys K V).cache.LRU.length : Int) ≤ 1 := Int.one_nonneg
  have hb := bound_Sys_run hwf (le_trans h0 (le_max_right _ _)) (evs.take n)
  rw [(WF_Sys_run hwf (evs.take n)).len_eq]
  unfold ICacheImpl.Cap
  rw [Capacity_Sys_run] at hb ⊢
  have hc : (NewSys cap : Sys K V).cache.Capacity = cap := rfl
  rw [hc] at hb ⊢
  rwa [max_eq_left hcap] at hb

/-- C1 at the cache of the test `TestAdd`: capacity 3, the keys 1, 2, 3, 4 added,
the third with a TTL that then expires. -/
theorem capacity_invariant_witness :
    (1 : Int) ≤ 3 ∧
    (((NewSys 3 : Sys Nat Nat).run
        ([Event.call (Op.add 1 10), Event.call (Op.add 2 20), Event.addWithTTL 3 30 1,
          Event.call (Op.add 4 40), Event.fire 0].take 5)).cache.Len : Int)
      ≤ ((NewSys 3 : Sys Nat Nat).run
        ([Event.call (Op.add 1 10), Event.call (Op.add 2 20), Event.addWithTTL 3 30 1,
          Event.call (Op.add 4 40), Event.fire 0].take 5)).cache.Cap :=
  ⟨by decide, capacity_invariant 3 (by decide) _ 5⟩

/-- C2 (LRU eviction): in a cache of capacity `cap >= 1` reached by any sequence
`ops` of `Add`, `Get`, `Remove` and `Clear` calls, when the `Add` of an absent
key `k` evicts the key `e` (present before the `Add`, absent after it), then
for every other key `k1` present before the `Add`, the most recent touch of
`e` (an `Add` of it, or a `Get` that hit it) is older than the most recent
touch of `k1`, and `k1` is not removed: `Get(k1)` returns after the `Add` what
it returned before. -/
theorem lru_eviction (cap : Int) (_hcap : 1 ≤ cap) (ops : List (Op K V)) (k e : K) (v : V)
    (hk : ((run (NewICache cap) ops).Get k).2.2 = false)
    (he : ((run (NewICache cap) ops).Get e).2.2 = true)
    (hev : (((run (NewICache cap) ops).Add k v).Get e).2.2 = false)
    (k1 : K) (hne : k1 ≠ e) (hk1 : ((run (NewICache cap) ops).Get k1).2.2 = true) :
    (∃ te t1, lastTouch (NewICache cap : ICacheImpl K V) 0 ops e = some te ∧
        lastTouch (NewICache cap : ICacheImpl K V) 0 ops k1 = some t1 ∧ te < t1) ∧
      (((run (NewICache cap) ops).Add k v).Get k1).2 = ((run (NewICache cap) ops).Get k1).2 := by
  have hwf : WF (run (NewICache cap : ICacheImpl K V) ops) := (WF_NewICache cap).run ops
  have hsorted := recency_sorted (K := K) (V := V) cap ops
  generalize run (NewICache cap : ICacheImpl K V) ops = c at hk he hev hk1 hwf hsorted ⊢
  generalize lastTouch (NewICache cap : ICacheImpl K V) 0 ops = τ at hsorted ⊢
  have hk0 : k ∉ order c := (Get_ok_false_iff hwf k).1 hk
  have he0 : e ∈ order c := (Get_ok_iff hwf e).1 he
  have hk10 : k1 ∈ order c := (Get_ok_iff hwf k1).1 hk1
  have hev0 : e ∉ order (c.Add k v) := (Get_ok_false_iff (hwf.Add k v) e).1 hev
  have hadd := (ICacheImpl.Add_of_not_mem hwf hk0 v).2.2
  rw [order_Add_of_not_mem hwf hk0] at hev0
  by_cases hfull : c.Capacity ≤ (c.LRU.length : Int)
  · rw [if_pos hfull] at hev0 hadd
    have hed : e ∉ (order c).dropLast := fun h => hev0 (List.mem_cons_of_mem _ h)
    have hlast : (order c).getLast? = some e := getLast?_of_mem_of_not_mem_dropLast he0 hed
    have hk1d : k1 ∈ (order c).dropLast :=
      (mem_dropLast_or_eq_last hlast hk10).resolve_right hne
    constructor
    · have hp := hsorted.2
      rw [← List.dropLast_append_getLast? e hlast, List.pairwise_append] at hp
      obtain ⟨te, hte, _⟩ := hsorted.1 e he0
      obtain ⟨t1, ht1, _⟩ := hsorted.1 k1 hk10
      exact ⟨te, t1, hte, ht1, hp.2.2 k1 hk1d e (List.mem_singleton.2 rfl) t1 te ht1 hte⟩
    · obtain ⟨v1, hv1⟩ := exists_entry_of_mem_order hk10
      have hlastE := order_getLast? c
      rw [hlast] at hlastE
      cases hx : (entries c).getLast? with
      | none => rw [hx] at hlastE; cases hlastE
      | some x =>
        rw [hx] at hlastE
        have hxe : x.1 = e := (Option.some.inj hlastE).symm
        have hv1d : (k1, v1) ∈ (entries c).dropLast := by
          rcases mem_dropLast_or_eq_last hx hv1 with h | h
          · exact h
          · exact absurd (by rw [← h] at hxe; exact hxe) hne
        have hafter : (k1, v1) ∈ entries (c.Add k v) := by
          rw [hadd]
          exact List.mem_cons_of_mem _ hv1d
        rw [(entries_Get_of_mem (hwf.Add k v) hafter).2, (entries_Get_of_mem hwf hv1).2]
  · rw [if_neg hfull] at hev0
    exact absurd (List.mem_cons_of_mem _ he0) hev0

/-- C2 at the test `TestLRUOrder`: capacity 3, the `Add` of a fourth key evicts
key 2, whose last touch (position 2) is older than that of key 3 (position 3). -/
theorem lru_eviction_witness :
    (1 : Int) ≤ 3 ∧
    ((run (NewICache 3) lruOrderOps).Get 4).2.2 = false ∧
    ((run (NewICache 3) lruOrderOps).Get 2).2.2 = true ∧
    (((run (NewICache 3) lruOrderOps).Add 4 40).Get 2).2.2 = false ∧
    (3 : Nat) ≠ 2 ∧
    ((run (NewICache 3) lruOrderOps).Get 3).2.2 = true ∧
    ((∃ te t1, lastTouch (NewICache 3 : ICacheImpl Nat Nat) 0 lruOrderOps 2 = some te ∧
        lastTouch (NewICache 3 : ICacheImpl Nat Nat) 0 lruOrderOps 3 = some t1 ∧ te < t1) ∧
      (((run (NewICache 3) lruOrderOps).Add 4 40).Get 3).2
        = ((run (NewICache 3) lruOrderOps).Get 3).2) :=
  ⟨by decide, by decide, by decide, by decide, by decide, by decide,
    lru_eviction 3 (by decide) lruOrderOps 4 2 40 (by decide) (by decide) (by decide) 3
      (by decide) (by decide)⟩


/-- C3 (LRU order): for every capacity `cap >= 1` and every list of `cap + 1`
pairwise distinct keys `k0, k1, ..., k_cap` (the key `k0` with value `v0`, then
the `cap` pairs of `rest`) added in that order with `Add` to a new cache,
afterwards `Len() = cap`, `Get(k0)` returns found = false, and each of the
other keys is present with the value it was added with. -/
theorem overload_evicts_first (cap : Int) (hcap : 1 ≤ cap) (k0 : K) (v0 : V)
    (rest : List (K × V)) (hlen : (rest.length : Int) = cap)
    (hnd : (k0 :: rest.map Prod.fst).Nodup) :
    ((run (NewICache cap) (((k0, v0) :: rest).map (fun p => Op.add p.1 p.2))).Len : Int) = cap ∧
      ((run (NewICache cap) (((k0, v0) :: rest).map (fun p => Op.add p.1 p.2))).Get k0).2
        = (none, false) ∧
      ∀ p ∈ rest,
        ((run (NewICache cap) (((k0, v0) :: rest).map (fun p => Op.add p.1 p.2))).Get p.1).2
          = (some p.2, true) := by
  have hent := entries_run_overload cap hcap k0 v0 rest hlen hnd
  have hwf : WF (run (NewICache cap : ICacheImpl K V)
      (((k0, v0) :: rest).map (fun p => Op.add p.1 p.2))) := (WF_NewICache cap).run _
  refine ⟨?_, ?_, ?_⟩
  · rw [hwf.len_eq_entries, hent, List.length_reverse]
    exact hlen
  · have hk0 : k0 ∉ order (run (NewICache cap : ICacheImpl K V)
        (((k0, v0) :: rest).map (fun p => Op.add p.1 p.2))) := by
      rw [order_eq_map_entries, hent, List.map_reverse, List.mem_reverse]
      exact (List.nodup_cons.1 hnd).1
    rw [ICacheImpl.Get_of_not_mem hwf hk0]
  · intro p hp
    have hmem : (p.1, p.2) ∈ entries (run (NewICache cap : ICacheImpl K V)
        (((k0, v0) :: rest).map (fun p => Op.add p.1 p.2))) := by
      rw [hent]
      exact List.mem_reverse.2 hp
    exact (entries_Get_of_mem hwf hmem).2

/-- C3 at the test `TestAdd/Overload`: capacity 3 and the keys 1, 2, 3, 4 leave
exactly the keys 2, 3, 4. -/
theorem overload_evicts_first_witness :
    (1 : Int) ≤ 3 ∧ (([(2, 20), (3, 30), (4, 40)] : List (Nat × Nat)).length : Int) = 3 ∧
    ((1 : Nat) :: ([(2, 20), (3, 30), (4, 40)] : List (Nat × Nat)).map Prod.fst).Nodup ∧
    (((run (NewICache 3) (((1, 10) :: ([(2, 20), (3, 30), (4, 40)] : List (Nat × Nat))).map
        (fun p => Op.add p.1 p.2))).Len : Int) = 3 ∧
      ((run (NewICache 3) (((1, 10) :: ([(2, 20), (3, 30), (4, 40)] : List (Nat × Nat))).map
        (fun p => Op.add p.1 p.2))).Get 1).2 = (none, false) ∧
      ∀ p ∈ ([(2, 20), (3, 30), (4, 40)] : List (Nat × Nat)),
        ((run (NewICache 3) (((1, 10) :: ([(2, 20), (3, 30), (4, 40)] : List (Nat × Nat))).map
          (fun p => Op.add p.1 p.2))).Get p.1).2 = (some p.2, true)) :=
  ⟨by decide, by decide, by decide,
    overload_evicts_first 3 (by decide) 1 10 [(2, 20), (3, 30), (4, 40)] (by decide) (by decide)⟩

/-- C4 (promotion on access): in a full cache (`Len() = Cap()`) of capacity at
least 2, for a present key `a` (with value `va`) and an absent key `d`, after
`Get(a)` and then `Add(d, v)`: the recency order is `d`, `a`, then the other
keys in their old order without the last of them; `a` is still present with
the value `va` and `d` is present with `v`; the back-most key `b` other than `a`
in the order before the `Get` is absent, and every other key that was present
is still present with its value. -/
theorem promotion_on_access (c : ICacheImpl K V) (h : WF c) (hcap : 2 ≤ c.Cap)
    (hfull : (c.Len : Int) = c.Cap) (a d : K) (va v : V)
    (ha : (c.Get a).2 = (some va, true)) (hd : (c.Get d).2.2 = false) :
    order ((c.Get a).1.Add d v)
        = d :: a :: ((order c).filter (fun x => decide (x ≠ a))).dropLast ∧
      (((c.Get a).1.Add d v).Get a).2 = (some va, true) ∧
      (((c.Get a).1.Add d v).Get d).2 = (some v, true) ∧
      ∃ b, ((order c).filter (fun x => decide (x ≠ a))).getLast? = some b ∧
        (((c.Get a).1.Add d v).Get b).2.2 = false ∧
        ∀ k, k ≠ b → (c.Get k).2.2 = true →
          (((c.Get a).1.Add d v).Get k).2 = (c.Get k).2 := by
  have hae : (a, va) ∈ entries c := mem_entries_of_Get h ha
  have hao : a ∈ order c := mem_order_of_mem_entries hae
  have hdo : d ∉ order c := (Get_ok_false_iff h d).1 hd
  have hent := entries_Get_Add h hcap hfull hae hdo v
  have hwf2 : WF ((c.Get a).1.Add d v) := (h.Get a).Add d v
  have hord : order ((c.Get a).1.Add d v)
      = d :: a :: ((order c).filter (fun x => decide (x ≠ a))).dropLast := by
    rw [order_eq_map_entries, hent, List.map_cons, List.map_cons, List.map_dropLast,
      map_fst_filter, ← order_eq_map_entries]
  have hga : (((c.Get a).1.Add d v).Get a).2 = (some va, true) :=
    (entries_Get_of_mem hwf2 (by rw [hent]; simp)).2
  refine ⟨hord, hga, (entries_Get_of_mem hwf2 (by rw [hent]; simp)).2, ?_⟩
  have hlen := length_filter_entries h hao
  cases hx : ((entries c).filter (fun p => decide (p.1 ≠ a))).getLast? with
  | none =>
    rw [List.getLast?_eq_none_iff.1 hx, List.length_nil] at hlen
    rw [h.len_eq, ← hlen] at hfull
    unfold ICacheImpl.Cap at hcap hfull
    rw [← hfull] at hcap
    exact absurd hcap (by decide)
  | some x =>
    have hlast : ((order c).filter (fun y => decide (y ≠ a))).getLast? = some x.1 := by
      rw [order_eq_map_entries, ← map_fst_filter, List.getLast?_map, hx]
      rfl
    have hnd : ((order c).filter (fun y => decide (y ≠ a))).Nodup := by
      unfold order
      exact h.keys.sublist (List.filter_sublist _)
    have hxa : x.1 ≠ a := by
      have := (List.mem_filter.1 (List.mem_of_getLast?_eq_some hlast)).2
      simpa using this
    have hxo : x.1 ∈ order c := (List.mem_filter.1 (List.mem_of_getLast?_eq_some hlast)).1
    have hxd : x.1 ≠ d := fun e => hdo (e ▸ hxo)
    refine ⟨x.1, hlast, ?_, ?_⟩
    · rw [Get_ok_false_iff hwf2, hord]
      intro hmem
      rcases List.mem_cons.1 hmem with e | hmem
      · exact hxd e
      · rcases List.mem_cons.1 hmem with e | hmem
        · exact hxa e
        · exact not_mem_dropLast_of_nodup hnd hlast hmem
    · intro k hkb hk
      obtain ⟨vk, hvk⟩ := exists_entry_of_mem_order ((Get_ok_iff h k).1 hk)
      rw [(entries_Get_of_mem h hvk).2]
      by_cases hka : k = a
      · subst hka
        rw [hga, entries_functional h hae hvk]
      · have hmemF : (k, vk) ∈ (entries c).filter (fun p => decide (p.1 ≠ a)) := by
          rw [List.mem_filter]
          exact ⟨hvk, by simpa using hka⟩
        have hdrop : (k, vk) ∈ ((entries c).filter (fun p => decide (p.1 ≠ a))).dropLast := by
          rcases mem_dropLast_or_eq_last hx hmemF with hm | hm
          · exact hm
          · exact absurd (congrArg Prod.fst hm) hkb
        exact (entries_Get_of_mem hwf2 (by
          rw [hent]
          exact List.mem_cons_of_mem _ (List.mem_cons_of_mem _ hdrop))).2

/-- C4 at the promotion example of the specification: capacity 3, the keys A, B,
C (1, 2, 3) inserted in that order, `Get(A)`, then `Add(D)` (key 4): B is
evicted, not A. -/
theorem promotion_on_access_witness :
    WF abcCache ∧ 2 ≤ abcCache.Cap ∧ (abcCache.Len : Int) = abcCache.Cap ∧
    (abcCache.Get 1).2 = (some 10, true) ∧ (abcCache.Get 4).2.2 = false ∧
    (order ((abcCache.Get 1).1.Add 4 40)
        = 4 :: 1 :: ((order abcCache).filter (fun x => decide (x ≠ 1))).dropLast ∧
      (((abcCache.Get 1).1.Add 4 40).Get 1).2 = (some 10, true) ∧
      (((abcCache.Get 1).1.Add 4 40).Get 4).2 = (some 40, true) ∧
      ∃ b, ((order abcCache).filter (fun x => decide (x ≠ 1))).getLast? = some b ∧
        (((abcCache.Get 1).1.Add 4 40).Get b).2.2 = false ∧
        ∀ k, k ≠ b → (abcCache.Get k).2.2 = true →
          (((abcCache.Get 1).1.Add 4 40).Get k).2 = (abcCache.Get k).2) :=
  ⟨(WF_NewICache 3).run _, by decide, by decide, by decide, by decide,
    promotion_on_access abcCache ((WF_NewICache 3).run _) (by decide) (by decide) 1 4 10 40
      (by decide) (by decide)⟩

/-- C5 (update): when the key `k` is present, `Add(k, v)` stores `v` under `k`
(a following `Get(k)` returns `(v, true)`), makes `k` the front entry of the
recency order and keeps the other keys in their relative order, leaves `Len()`
unchanged, and leaves every other key as it was: `Get` of another key returns
what it returned before.  Nothing is evicted, whatever the capacity: the
entries are the old ones, with the entry of `k` replaced and moved to the
front. -/
theorem update_existing (c : ICacheImpl K V) (h : WF c) (k : K) (v : V)
    (hk : (c.Get k).2.2 = true) :
    ((c.Add k v).Get k).2 = (some v, true) ∧
      order (c.Add k v) = k :: (order c).filter (fun x => decide (x ≠ k)) ∧
      (c.Add k v).Len = c.Len ∧
      (∀ k1, k1 ≠ k → ((c.Add k v).Get k1).2 = (c.Get k1).2) ∧
      entries (c.Add k v) = (k, v) :: (entries c).filter (fun p => decide (p.1 ≠ k)) := by
  have hko : k ∈ order c := (Get_ok_iff h k).1 hk
  have hent := entries_Add_of_mem h hko v
  have hwf : WF (c.Add k v) := h.Add k v
  refine ⟨?_, order_Add_of_mem h hko v, ?_, ?_, hent⟩
  · exact (entries_Get_of_mem hwf (by rw [hent]; exact List.mem_cons_self _ _)).2
  · rw [hwf.len_eq, h.len_eq, length_Add_of_mem h hko]
  · intro k1 hne
    apply Get_congr hwf h
    intro w
    rw [hent]
    exact mem_cons_filter_entries_of_ne hne w v

/-- C5 at the full cache of the promotion test: re-adding key 2 with a new value. -/
theorem update_existing_witness :
    WF abcCache ∧ (abcCache.Get 2).2.2 = true ∧
    (((abcCache.Add 2 21).Get 2).2 = (some 21, true) ∧
      order (abcCache.Add 2 21) = 2 :: (order abcCache).filter (fun x => decide (x ≠ 2)) ∧
      (abcCache.Add 2 21).Len = abcCache.Len ∧
      (∀ k1, k1 ≠ 2 → ((abcCache.Add 2 21).Get k1).2 = (abcCache.Get k1).2) ∧
      entries (abcCache.Add 2 21)
        = (2, 21) :: (entries abcCache).filter (fun p => decide (p.1 ≠ 2))) :=
  ⟨(WF_NewICache 3).run _, by decide,
    update_existing abcCache ((WF_NewICache 3).run _) 2 21 (by decide)⟩

/-- C6 (`Get`): when the recency list holds the key `k` with the value `v`,
`Get(k)` returns `(v, true)` and `k` becomes the front entry of the recency
order, the other keys keeping their relative order; when `k` is absent,
`Get(k)` returns `(nil, false)`. -/
theorem get_hit_or_miss (c : ICacheImpl K V) (h : WF c) (k : K) :
    (∀ v, (k, v) ∈ entries c →
        (c.Get k).2 = (some v, true) ∧
          order (c.Get k).1 = k :: (order c).filter (fun x => decide (x ≠ k))) ∧
      (k ∉ order c → (c.Get k).2 = (none, false)) := by
  constructor
  · intro v hv
    exact ⟨(entries_Get_of_mem h hv).2, order_Get_of_mem h (mem_order_of_mem_entries hv)⟩
  · intro hk
    rw [ICacheImpl.Get_of_not_mem h hk]

/-- C6 at the cache of the promotion test: a hit on key 1, a miss on key 4. -/
theorem get_hit_or_miss_witness :
    WF abcCache ∧
    ((∀ v, (1, v) ∈ entries abcCache →
        (abcCache.Get 1).2 = (some v, true) ∧
          order (abcCache.Get 1).1 = 1 :: (order abcCache).filter (fun x => decide (x ≠ 1))) ∧
      (1 ∉ order abcCache → (abcCache.Get 1).2 = (none, false))) ∧
    (1, 10) ∈ entries abcCache ∧ (abcCache.Get 1).2 = (some 10, true) ∧
    4 ∉ order abcCache ∧ (abcCache.Get 4).2 = (none, false) :=
  ⟨(WF_NewICache 3).run _, get_hit_or_miss abcCache ((WF_NewICache 3).run _) 1,
    by decide, by decide, by decide, by decide⟩

/-- C7 (`Remove`): after `Remove(k)`, `Get(k)` returns found = false.  When
`k` was present, `Len()` decreases by exactly one and `k` is in neither the map
`Data` nor the recency list; when `k` was absent, the cache is unchanged.  In
both cases the other entries stay, with their values and in the same relative
order, and `Get` of another key returns what it returned before. -/
theorem remove_contract (c : ICacheImpl K V) (h : WF c) (k : K) :
    ((c.Remove k).Get k).2 = (none, false) ∧
      (k ∈ order c →
        (c.Remove k).Len + 1 = c.Len ∧ GoMap.get (c.Remove k).Data k = none ∧
          k ∉ order (c.Remove k)) ∧
      (k ∉ order c → c.Remove k = c) ∧
      entries (c.Remove k) = (entries c).filter (fun p => decide (p.1 ≠ k)) ∧
      (∀ k1, k1 ≠ k → ((c.Remove k).Get k1).2 = (c.Get k1).2) := by
  have hwf : WF (c.Remove k) := h.Remove k
  have hnot : k ∉ order (c.Remove k) := by
    rw [order_Remove h]
    exact not_mem_filter_ne _ _
  refine ⟨Get_Remove_self h k, ?_, fun hk => ICacheImpl.Remove_of_not_mem h hk,
    entries_Remove h k, fun k1 hne => Get_Remove_of_ne h hne⟩
  intro hk
  refine ⟨?_, hwf.get_of_not_mem hnot, hnot⟩
  rw [hwf.len_eq_entries, entries_Remove h, h.len_eq]
  exact length_filter_entries h hk

/-- C7 at the cache of the promotion test: removing the present key 2 and the
absent key 9. -/
theorem remove_contract_witness :
    WF abcCache ∧
    (((abcCache.Remove 2).Get 2).2 = (none, false) ∧
      (2 ∈ order abcCache →
        (abcCache.Remove 2).Len + 1 = abcCache.Len ∧
          GoMap.get (abcCache.Remove 2).Data 2 = none ∧ 2 ∉ order (abcCache.Remove 2)) ∧
      (2 ∉ order abcCache → abcCache.Remove 2 = abcCache) ∧
      entries (abcCache.Remove 2) = (entries abcCache).filter (fun p => decide (p.1 ≠ 2)) ∧
      (∀ k1, k1 ≠ 2 → ((abcCache.Remove 2).Get k1).2 = (abcCache.Get k1).2)) ∧
    2 ∈ order abcCache ∧ (abcCache.Remove 2).Len = 2 ∧ abcCache.Remove 9 = abcCache :=
  ⟨(WF_NewICache 3).run _, remove_contract abcCache ((WF_NewICache 3).run _) 2,
    by decide, by decide, by decide⟩

/-- C8 (`Clear`): after `Clear()` on any cache, `Len() = 0`, `Get(k)` returns
`(nil, false)` for every key `k` and changes nothing, the recency list is
empty, and `Cap()` is what it was. -/
theorem clear_resets (c : ICacheImpl K V) :
    c.Clear.Len = 0 ∧ (∀ k, c.Clear.Get k = (c.Clear, none, false)) ∧ c.Clear.LRU = [] ∧
      c.Clear.Cap = c.Cap :=
  ⟨rfl, fun _ => rfl, rfl, rfl⟩

/-- C9 fails as stated: a cache of capacity 0 keeps the entry just added.  After
`Add(1, 10)` on `NewICache(0)`, `Len()` is 1 (not 0) and `Get(1)` finds the
value. -/
theorem zero_capacity_keeps_entry :
    ((NewICache 0 : ICacheImpl Nat Nat).Add 1 10).Len = 1 ∧
      ((NewICache 0 : ICacheImpl Nat Nat).Add 1 10).Len ≠ 0 ∧
      (((NewICache 0 : ICacheImpl Nat Nat).Add 1 10).Get 1).2 = (some 10, true) := by
  decide

/-- C9, amended: a cache constructed with capacity `cap <= 0` retains exactly
one entry, the one added last.  After every `Add(k, v)` of a sequence of `Add`
calls on the new cache, `Len() = 1`, the only entry is `(k, v)`, and `Get(k)`
returns `(v, true)`: each `Add` of a new key first evicts the entry that was
retained, and then inserts. -/
theorem nonpositive_capacity_keeps_last (cap : Int) (hcap : cap ≤ 0) (kvs : List (K × V))
    (k : K) (v : V) :
    ((run (NewICache cap) (kvs.map (fun p => Op.add p.1 p.2))).Add k v).Len = 1 ∧
      entries ((run (NewICache cap) (kvs.map (fun p => Op.add p.1 p.2))).Add k v) = [(k, v)] ∧
      (((run (NewICache cap) (kvs.map (fun p => Op.add p.1 p.2))).Add k v).Get k).2
        = (some v, true) := by
  have hwf : WF (run (NewICache cap : ICacheImpl K V) (kvs.map (fun p => Op.add p.1 p.2))) :=
    (WF_NewICache cap).run _
  have hc : (run (NewICache cap : ICacheImpl K V)
      (kvs.map (fun p => Op.add p.1 p.2))).Capacity ≤ 0 := by
    rw [Capacity_run]
    exact hcap
  have hent := entries_Add_of_length_le_one hwf hc (length_run_adds_le_one cap hcap kvs) k v
  have hwf2 := hwf.Add k v
  refine ⟨?_, hent, ?_⟩
  · rw [hwf2.len_eq_entries, hent]
    rfl
  · exact (entries_Get_of_mem hwf2 (by rw [hent]; exact List.mem_singleton.2 rfl)).2

/-- C9, amended, at capacity 0 and at capacity -1: the keys 1 and 2 were added,
then key 3 is. -/
theorem nonpositive_capacity_keeps_last_witness :
    ((0 : Int) ≤ 0 ∧
      ((run (NewICache 0) (([(1, 10), (2, 20)] : List (Nat × Nat)).map
          (fun p => Op.add p.1 p.2))).Add 3 30).Len = 1 ∧
      entries ((run (NewICache 0) (([(1, 10), (2, 20)] : List (Nat × Nat)).map
          (fun p => Op.add p.1 p.2))).Add 3 30) = [(3, 30)] ∧
      (((run (NewICache 0) (([(1, 10), (2, 20)] : List (Nat × Nat)).map
          (fun p => Op.add p.1 p.2))).Add 3 30).Get 3).2 = (some 30, true)) ∧
    ((-1 : Int) ≤ 0 ∧
      ((run (NewICache (-1)) (([(1, 10), (2, 20)] : List (Nat × Nat)).map
          (fun p => Op.add p.1 p.2))).Add 3 30).Len = 1) :=
  ⟨⟨by decide, nonpositive_capacity_keeps_last 0 (by decide) [(1, 10), (2, 20)] 3 30⟩,
    ⟨by decide, (nonpositive_capacity_keeps_last (-1) (by decide) [(1, 10), (2, 20)] 3 30).1⟩⟩

/-- C10 (TTL expiry): `AddWithTTL(k, v, ttl)` is called in a system whose cache
is well formed; then any sequence `ops` of `Add`, `Get`, `Remove` and `Clear`
calls runs; then the timer of that `AddWithTTL` fires.  Right after, `Get(k)`
returns found = false, whatever happened to `k` in between, and no other entry
is removed by the expiry: the entries are those before the expiry without the
entry of `k`, in the same order, and `Get` of another key returns what it
returned before the expiry. -/
theorem ttl_expiry (s : Sys K V) (h : WF s.cache) (k : K) (v : V) (ttl : Int)
    (ops : List (Op K V)) :
    ((((s.step (Event.addWithTTL k v ttl)).run (ops.map Event.call)).step
        (Event.fire s.pending.length)).cache.Get k).2 = (none, false) ∧
      entries (((s.step (Event.addWithTTL k v ttl)).run (ops.map Event.call)).step
          (Event.fire s.pending.length)).cache
        = (entries ((s.step (Event.addWithTTL k v ttl)).run (ops.map Event.call)).cache).filter
            (fun p => decide (p.1 ≠ k)) ∧
      (∀ k1, k1 ≠ k →
        ((((s.step (Event.addWithTTL k v ttl)).run (ops.map Event.call)).step
          (Event.fire s.pending.length)).cache.Get k1).2
          = (((s.step (Event.addWithTTL k v ttl)).run (ops.map Event.call)).cache.Get k1).2) := by
  have hstep : s.step (Event.addWithTTL k v ttl)
      = { cache := s.cache.Add k v, pending := s.pending ++ [{ key := k, ttl := ttl }] } := rfl
  have hfire : ((s.step (Event.addWithTTL k v ttl)).run (ops.map Event.call)).step
      (Event.fire s.pending.length)
      = { cache := (run (s.cache.Add k v) ops).Remove k, pending := s.pending } := by
    rw [hstep, Sys_run_calls, Sys.step_fire]
    simp only [get?_append_length, eraseIdx_append_length]
    rfl
  have hwf : WF (run (s.cache.Add k v) ops) := (h.Add k v).run ops
  rw [hfire, hstep, Sys_run_calls]
  exact ⟨Get_Remove_self hwf k, entries_Remove hwf k, fun k1 hne => Get_Remove_of_ne hwf hne⟩

/-- C10 at the test `TestAdd/TTL-1`: key 1 is in the cache, key 3 is added with a
TTL, key 3 is then removed and re-added by plain calls, and the timer fires:
key 3 is gone and key 1 is still there. -/
theorem ttl_expiry_witness :
    WF (NewSys 3 : Sys Nat Nat).cache ∧
    (((((NewSys 3 : Sys Nat Nat).step (Event.addWithTTL 3 30 1)).run
        ([Op.add 1 10, Op.remove 3, Op.add 3 31].map Event.call)).step
        (Event.fire (NewSys 3 : Sys Nat Nat).pending.length)).cache.Get 3).2 = (none, false) ∧
    entries ((((NewSys 3 : Sys Nat Nat).step (Event.addWithTTL 3 30 1)).run
        ([Op.add 1 10, Op.remove 3, Op.add 3 31].map Event.call)).step
        (Event.fire (NewSys 3 : Sys Nat Nat).pending.length)).cache = [(1, 10)] :=
  ⟨WF_NewICache 3,
    (ttl_expiry (NewSys 3) (WF_NewICache 3) 3 30 1 [Op.add 1 10, Op.remove 3, Op.add 3 31]).1,
    by decide⟩

/-- C11 (`Remove` is idempotent): for every cache state `c` and key `k`, the
state after `Remove(k)` twice is the state after `Remove(k)` once; and in a
cache reached from `NewICache(cap)` by calls and expiries none of which
inserted the key `k0` (no `Add` and no `AddWithTTL` of `k0`), `Remove(k0)` leaves
the state unchanged. -/
theorem remove_idempotent (c : ICacheImpl K V) (k : K) (cap : Int) (evs : List (Event K V))
    (k0 : K) (hnever : ∀ ev ∈ evs, inserts ev k0 = false) :
    (c.Remove k).Remove k = c.Remove k ∧
      ((NewSys cap : Sys K V).run evs).cache.Remove k0
        = ((NewSys cap : Sys K V).run evs).cache := by
  constructor
  · exact Remove_of_get_none (get_Data_Remove_self c k)
  · have hwf : WF (NewSys cap : Sys K V).cache := WF_NewICache cap
    have hk : k0 ∉ order ((NewSys cap : Sys K V).run evs).cache :=
      not_mem_order_Sys_run hwf (fun hm => by cases hm) evs hnever
    exact ICacheImpl.Remove_of_not_mem (WF_Sys_run hwf evs) hk

/-- C11 at the test `TestRemove`: removing key 2 twice from the cache with the
keys 1, 2, 3, and removing the key 9 that was never inserted. -/
theorem remove_idempotent_witness :
    (∀ ev ∈ expiryEvents, inserts ev 9 = false) ∧
    (abcCache.Remove 2).Remove 2 = abcCache.Remove 2 ∧
    ((NewSys 3 : Sys Nat Nat).run expiryEvents).cache.Remove 9
      = ((NewSys 3 : Sys Nat Nat).run expiryEvents).cache :=
  ⟨by decide, remove_idempotent abcCache 2 3 expiryEvents 9 (by decide)⟩

/-- C12 (index and order agree): in every state `c` reached from
`NewICache(cap)` by `Add`, `AddWithTTL`, `Get`, `Remove` and `Clear` calls and
the expiries they scheduled, a key is in the map `Data` exactly when an item of
the recency list has it; no key occurs in two elements of the list and no
element occurs twice; `Data[k]` is the address of the element whose item has
the key `k`; and `Len()`, the size of `Data`, is the length of the list. -/
theorem index_order_consistent (cap : Int) (evs : List (Event K V)) (c : ICacheImpl K V)
    (hc : ((NewSys cap : Sys K V).run evs).cache = c) :
    (∀ k, (GoMap.get c.Data k).isSome = true ↔ k ∈ order c) ∧
      (c.Data.map Prod.fst).Perm (order c) ∧
      (order c).Nodup ∧
      (c.LRU.map (fun e => e.addr)).Nodup ∧
      (∀ k a, GoMap.get c.Data k = some a ↔ ∃ e ∈ c.LRU, e.item.key = k ∧ e.addr = a) ∧
      c.Len = c.LRU.length := by
  have h : WF c := hc ▸ WF_Sys_run (WF_NewICache cap) evs
  refine ⟨?_, h.data_keys, h.keys, h.addrs, h.get_Data_eq_some_iff, h.len_eq⟩
  intro k
  constructor
  · intro hsome
    by_contra hk
    rw [h.get_of_not_mem hk] at hsome
    cases hsome
  · intro hk
    obtain ⟨e, he, rfl⟩ := mem_order.1 hk
    rw [h.get_of_mem he]
    rfl

/-- C12 at a cache of capacity 2 after an eviction, an update and an expiry:
the list holds the one element at address 2, with key 3, and the map holds
`3 -> 2`. -/
theorem index_order_consistent_witness :
    ((NewSys 2 : Sys Nat Nat).run expiryEvents).cache
      = ((NewSys 2 : Sys Nat Nat).run expiryEvents).cache ∧
    ((NewSys 2 : Sys Nat Nat).run expiryEvents).cache.Data = [(3, 2)] ∧
    ((NewSys 2 : Sys Nat Nat).run expiryEvents).cache.LRU
      = [{ addr := 2, item := { key := 3, value := 31 } }] ∧
    ((∀ k, (GoMap.get ((NewSys 2 : Sys Nat Nat).run expiryEvents).cache.Data k).isSome = true
        ↔ k ∈ order ((NewSys 2 : Sys Nat Nat).run expiryEvents).cache) ∧
      (((NewSys 2 : Sys Nat Nat).run expiryEvents).cache.Data.map Prod.fst).Perm
        (order ((NewSys 2 : Sys Nat Nat).run expiryEvents).cache) ∧
      (order ((NewSys 2 : Sys Nat Nat).run expiryEvents).cache).Nodup ∧
      (((NewSys 2 : Sys Nat Nat).run expiryEvents).cache.LRU.map (fun e => e.addr)).Nodup ∧
      (∀ k a, GoMap.get ((NewSys 2 : Sys Nat Nat).run expiryEvents).cache.Data k = some a
        ↔ ∃ e ∈ ((NewSys 2 : Sys Nat Nat).run expiryEvents).cache.LRU,
            e.item.key = k ∧ e.addr = a) ∧
      ((NewSys 2 : Sys Nat Nat).run expiryEvents).cache.Len
        = ((NewSys 2 : Sys Nat Nat).run expiryEvents).cache.LRU.length) :=
  ⟨rfl, by decide, by decide, index_order_consistent 2 expiryEvents _ rfl⟩

/-- C13 (`Add` below the capacity): when `Len() < Cap()` and the key `k` is
absent, `Add(k, v)` evicts nothing: `Len()` increases by exactly one, `k` is the
front entry with the value `v`, and the entries that were present follow it
with their values and in the same order; `Get` of another key returns what it
returned before. -/
theorem add_below_capacity (c : ICacheImpl K V) (h : WF c) (k : K) (v : V)
    (hlen : (c.Len : Int) < c.Cap) (hk : (c.Get k).2.2 = false) :
    (c.Add k v).Len = c.Len + 1 ∧
      entries (c.Add k v) = (k, v) :: entries c ∧
      order (c.Add k v) = k :: order c ∧
      ((c.Add k v).Get k).2 = (some v, true) ∧
      (∀ k1, k1 ≠ k → ((c.Add k v).Get k1).2 = (c.Get k1).2) := by
  have hko : k ∉ order c := (Get_ok_false_iff h k).1 hk
  have hnot : ¬ c.Capacity ≤ (c.LRU.length : Int) := by
    rw [h.len_eq] at hlen
    exact not_le.2 hlen
  have hent : entries (c.Add k v) = (k, v) :: entries c := by
    rw [(ICacheImpl.Add_of_not_mem h hko v).2.2, if_neg hnot]
  have hwf : WF (c.Add k v) := h.Add k v
  refine ⟨?_, hent, ?_, Get_Add_self h k v, ?_⟩
  · rw [hwf.len_eq_entries, hent, h.len_eq_entries]
    rfl
  · rw [order_Add_of_not_mem h hko, if_neg hnot]
  · intro k1 hne
    apply Get_congr hwf h
    intro w
    rw [hent, List.mem_cons]
    constructor
    · rintro (hm | hm)
      · exact absurd (congrArg Prod.fst hm) hne
      · exact hm
    · exact fun hm => Or.inr hm

/-- C13 at the test `TestAdd/Different type of data`: a second key is added to a
cache of capacity 3 that holds one. -/
theorem add_below_capacity_witness :
    WF ((NewICache 3 : ICacheImpl Nat Nat).Add 1 10) ∧
    ((((NewICache 3 : ICacheImpl Nat Nat).Add 1 10).Len : Nat) : Int)
      < ((NewICache 3 : ICacheImpl Nat Nat).Add 1 10).Cap ∧
    (((NewICache 3 : ICacheImpl Nat Nat).Add 1 10).Get 2).2.2 = false ∧
    ((((NewICache 3 : ICacheImpl Nat Nat).Add 1 10).Add 2 20).Len
        = ((NewICache 3 : ICacheImpl Nat Nat).Add 1 10).Len + 1 ∧
      entries (((NewICache 3 : ICacheImpl Nat Nat).Add 1 10).Add 2 20)
        = (2, 20) :: entries ((NewICache 3 : ICacheImpl Nat Nat).Add 1 10) ∧
      order (((NewICache 3 : ICacheImpl Nat Nat).Add 1 10).Add 2 20)
        = 2 :: order ((NewICache 3 : ICacheImpl Nat Nat).Add 1 10) ∧
      ((((NewICache 3 : ICacheImpl Nat Nat).Add 1 10).Add 2 20).Get 2).2 = (some 20, true) ∧
      (∀ k1, k1 ≠ 2 → ((((NewICache 3 : ICacheImpl Nat Nat).Add 1 10).Add 2 20).Get k1).2
        = (((NewICache 3 : ICacheImpl Nat Nat).Add 1 10).Get k1).2)) :=
  ⟨(WF_NewICache 3).Add 1 10, by decide, by decide,
    add_below_capacity _ ((WF_NewICache 3).Add 1 10) 2 20 (by decide) (by decide)⟩

/-- C15 (the bound for every capacity): in every state reached from
`NewICache(cap)` by `Add`, `Get`, `Remove` and `Clear` calls, whatever the sign
of `cap`, `Len() <= max(cap, 1)`; and when `cap <= 0`, right after every
`Add(k, v)` on such a state `Len() = 1` and the only entry is `(k, v)`. -/
theorem len_le_max_capacity_one (cap : Int) (ops : List (Op K V)) :
    ((run (NewICache cap : ICacheImpl K V) ops).Len : Int) ≤ max cap 1 ∧
      (cap ≤ 0 → ∀ (k : K) (v : V),
        ((run (NewICache cap : ICacheImpl K V) ops).Add k v).Len = 1 ∧
          entries ((run (NewICache cap : ICacheImpl K V) ops).Add k v) = [(k, v)]) := by
  have hwf : WF (run (NewICache cap : ICacheImpl K V) ops) := (WF_NewICache cap).run ops
  have h0 : (((NewICache cap : ICacheImpl K V).LRU.length : Nat) : Int)
      ≤ max (NewICache cap : ICacheImpl K V).Capacity 1 :=
    le_trans Int.one_nonneg (le_max_right _ _)
  have hb := bound_run (WF_NewICache cap) h0 ops
  rw [Capacity_run] at hb
  have hcapeq : (NewICache cap : ICacheImpl K V).Capacity = cap := rfl
  rw [hcapeq] at hb
  constructor
  · rw [hwf.len_eq]
    exact hb
  · intro hcap k v
    have hle : (run (NewICache cap : ICacheImpl K V) ops).LRU.length ≤ 1 := by
      rw [max_eq_right (le_trans hcap Int.one_nonneg)] at hb
      exact Int.ofNat_le.1 hb
    have hc : (run (NewICache cap : ICacheImpl K V) ops).Capacity ≤ 0 := by
      rw [Capacity_run]
      exact hcap
    have hent := entries_Add_of_length_le_one hwf hc hle k v
    refine ⟨?_, hent⟩
    rw [(hwf.Add k v).len_eq_entries, hent]
    rfl

/-- C15 at capacity -2: after three calls the cache holds one entry, and one
after a further `Add`. -/
theorem len_le_max_capacity_one_witness :
    ((run (NewICache (-2) : ICacheImpl Nat Nat) [Op.add 1 10, Op.get 1, Op.add 2 20]).Len : Int)
        ≤ max (-2) 1 ∧
      ((-2 : Int) ≤ 0 → ∀ (k : Nat) (v : Nat),
        ((run (NewICache (-2) : ICacheImpl Nat Nat) [Op.add 1 10, Op.get 1, Op.add 2 20]).Add
            k v).Len = 1 ∧
          entries ((run (NewICache (-2) : ICacheImpl Nat Nat)
            [Op.add 1 10, Op.get 1, Op.add 2 20]).Add k v) = [(k, v)]) :=
  len_le_max_capacity_one (-2) [Op.add 1 10, Op.get 1, Op.add 2 20]

/-- C16 (`Add` then `Get`): for every cache state, of any capacity (also zero
or negative), every key `k` and every value `v`, `Get(k)` called right after
`Add(k, v)` returns `(v, true)`. -/
theorem add_get_roundtrip (c : ICacheImpl K V) (h : WF c) (k : K) (v : V) :
    ((c.Add k v).Get k).2 = (some v, true) :=
  Get_Add_self h k v

/-- C16 at a full cache of capacity 3 and at caches of capacity 0 and -1. -/
theorem add_get_roundtrip_witness :
    (WF abcCache ∧ ((abcCache.Add 4 40).Get 4).2 = (some 40, true)) ∧
    (WF ((NewICache 0 : ICacheImpl Nat Nat).Add 1 10) ∧
      ((((NewICache 0 : ICacheImpl Nat Nat).Add 1 10).Add 2 20).Get 2).2 = (some 20, true)) ∧
    (WF (NewICache (-1) : ICacheImpl Nat Nat) ∧
      (((NewICache (-1) : ICacheImpl Nat Nat).Add 1 10).Get 1).2 = (some 10, true)) :=
  ⟨⟨(WF_NewICache 3).run _, add_get_roundtrip abcCache ((WF_NewICache 3).run _) 4 40⟩,
    ⟨(WF_NewICache 0).Add 1 10, add_get_roundtrip _ ((WF_NewICache 0).Add 1 10) 2 20⟩,
    ⟨WF_NewICache (-1), add_get_roundtrip _ (WF_NewICache (-1)) 1 10⟩⟩

/-- C17 (`Get` changes only the order): for every cache state and key `k`,
`Get(k)` leaves `Cap()`, `Len()` and the map `Data` unchanged, keeps the set
of present keys, and keeps the value of every key (a `Get` of any key returns
afterwards what it returned before).  The entries other than that of `k` keep
their relative order, and on a miss the whole state is unchanged. -/
theorem get_frame (c : ICacheImpl K V) (h : WF c) (k : K) :
    (c.Get k).1.Cap = c.Cap ∧ (c.Get k).1.Len = c.Len ∧ (c.Get k).1.Data = c.Data ∧
      (∀ x, x ∈ order (c.Get k).1 ↔ x ∈ order c) ∧
      (∀ x, ((c.Get k).1.Get x).2 = (c.Get x).2) ∧
      (entries (c.Get k).1).filter (fun p => decide (p.1 ≠ k))
        = (entries c).filter (fun p => decide (p.1 ≠ k)) ∧
      ((c.Get k).2.2 = false → (c.Get k).1 = c) := by
  refine ⟨Capacity_Get c k, ?_, Data_Get c k, fun x => mem_order_Get h, ?_,
    filter_entries_Get h k, ?_⟩
  · unfold ICacheImpl.Len
    rw [Data_Get]
  · intro x
    exact Get_congr (h.Get k) h (fun w => mem_entries_Get_iff h k x w)
  · intro hmiss
    rw [ICacheImpl.Get_of_not_mem h ((Get_ok_false_iff h k).1 hmiss)]

/-- C17 at the cache of the promotion test: a hit on the back key 1 reorders the
keys and nothing else, a miss on key 9 changes nothing. -/
theorem get_frame_witness :
    WF abcCache ∧
    ((abcCache.Get 1).1.Cap = abcCache.Cap ∧ (abcCache.Get 1).1.Len = abcCache.Len ∧
      (abcCache.Get 1).1.Data = abcCache.Data ∧
      (∀ x, x ∈ order (abcCache.Get 1).1 ↔ x ∈ order abcCache) ∧
      (∀ x, ((abcCache.Get 1).1.Get x).2 = (abcCache.Get x).2) ∧
      (entries (abcCache.Get 1).1).filter (fun p => decide (p.1 ≠ 1))
        = (entries abcCache).filter (fun p => decide (p.1 ≠ 1)) ∧
      ((abcCache.Get 1).2.2 = false → (abcCache.Get 1).1 = abcCache)) ∧
    order (abcCache.Get 1).1 = [1, 3, 2] ∧ order abcCache = [3, 2, 1] ∧
    (abcCache.Get 9).1 = abcCache :=
  ⟨(WF_NewICache 3).run _, get_frame abcCache ((WF_NewICache 3).run _) 1,
    by decide, by decide, by decide⟩

/-- C14 fails on the code: `Get` takes the shared lock although its body
modifies the recency list, so a second `Get` is admitted while a first one is
still running, and both are then modifying the list; `Add`, which takes the
exclusive lock, admits no second `Add` and no `Get` beside it. -/
theorem get_holds_shared_lock :
    Method.Get.lock = LockKind.shared ∧ Method.Get.writesLRU = true ∧
      ((Calls.idle.enter Method.Get).bind (fun s => s.enter Method.Get)).map
          (fun s => s.running) = some [Method.Get, Method.Get] ∧
      (Calls.idle.enter Method.Add).bind (fun s => s.enter Method.Add) = none ∧
      (Calls.idle.enter Method.Add).bind (fun s => s.enter Method.Get) = none := by
  decide

end WbCache
